import Mathlib

/-!
# A shallow embedding of `src/HashMap.js`

The JavaScript class `HashMap` is a separate-chaining hash table from string keys to
arbitrary values.  Its state is the triple `maxSize`, `size`, `buckets`
(`LOAD_FACTOR` is the constant `0.75` and is never assigned after construction).

Modelling choices:

* A key is the list of its UTF-16 code units (`key.charCodeAt(i)`), so `===` on keys is
  equality of lists.
* Numbers are exact integers.  `x % 0` is `NaN` in JavaScript; `hash` returns `none`
  for `NaN`.  The source computes in doubles: `hash` is exact for every capacity up to
  `2 ^ 48` (`hashDouble_eq_hash`), and `hashDouble` rounds as the source does at every
  capacity.
* `Array.from({ length: n })` throws a `RangeError` for `n` from `2 ^ 32` on; the embedding
  describes the tables below that length.
* `this.size / this.maxSize > 0.75` is modelled as `4 * size > 3 * maxSize`; this also
  matches JavaScript at `maxSize = 0` (`size / 0` is `Infinity`, `-Infinity` or `NaN`).
* `buckets[i]` outside the table is `undefined`, and calling `.findIndex` on it throws a
  `TypeError`; this is `Fault.typeError`.
* `set` and `doubleBucketSize` call each other; the embedding counts the nesting depth
  of calls with a fuel argument and reports `Fault.outOfFuel` when it is exhausted.
* `get` returns `null` for an absent key; this is `none`, stored values are `some v`.
-/

set_option autoImplicit false


/-! ## The data model and the chain operations -/

section

variable {V : Type}

/-- A key: the sequence of character codes of a JavaScript string. -/
abbrev Key := List Nat

/-- An entry object `{ key, value }` of a chain. -/
structure Entry (V : Type) where
  key : Key
  value : V
  deriving DecidableEq, Repr

/-- The ways a call can fail to return a value. -/
inductive Fault where
  | typeError
  | outOfFuel
  deriving DecidableEq, Repr

/-- The mutable fields of a `HashMap` object. -/
structure HashMap (V : Type) where
  maxSize : Nat
  size : Int
  buckets : List (List (Entry V))
  deriving DecidableEq, Repr

/-- The built-in `Array.prototype.findIndex`: the first index whose element satisfies `p`;
`none` stands for `-1`. -/
def findIndex {α : Type} (p : α → Bool) : List α → Option Nat
  | [] => none
  | x :: xs => if p x then some 0 else (findIndex p xs).map (· + 1)

/-! ### Recursive descriptions of what `set`, `get`, `has` and `remove` do to one chain -/

/-- The value of the first entry of a chain whose key is `k`. -/
def chainGet (k : Key) : List (Entry V) → Option V
  | [] => none
  | e :: c => if e.key = k then some e.value else chainGet k c

/-- Overwrite the first entry keyed `k`, or append a new entry at the end. -/
def chainSet (k : Key) (v : V) : List (Entry V) → List (Entry V)
  | [] => [{ key := k, value := v }]
  | e :: c => if e.key = k then { e with value := v } :: c else e :: chainSet k v c

/-- Delete the first entry keyed `k`. -/
def chainErase (k : Key) : List (Entry V) → List (Entry V)
  | [] => []
  | e :: c => if e.key = k then c else e :: chainErase k c

/-- The keys of a chain, in chain order. -/
def chainKeys (c : List (Entry V)) : List Key := c.map fun e => e.key

end

/-! ## The methods of the class, and the definitions used to reason about them -/

namespace HashMap

variable {V : Type}

/-- The expression `Array.from({ length: n }).map(() => [])`: a table of `n` empty chains,
for `n` below `2 ^ 32` (from there on `Array.from` throws a `RangeError`). -/
def emptyBuckets (n : Nat) : List (List (Entry V)) := List.replicate n []

/-- The state built by the constructor (lines 2-23). -/
def new : HashMap V := { maxSize := 16, size := 0, buckets := emptyBuckets 16 }

/-- One round of the loop of `hash` (lines 35-36) in exact arithmetic; `none` is `NaN`.
The source computes in doubles, which is the same for `maxSize` up to `2 ^ 48`; see
`hashStepDouble` for larger capacities. -/
def hashStep (maxSize : Nat) (hashCode : Option Nat) (c : Nat) : Option Nat :=
  match hashCode with
  | none => none
  | some h => if maxSize = 0 then none else some ((31 * h + c) % maxSize)

/-- The method `hash(key)` (lines 31-39) against the capacity `maxSize`. -/
def hash (maxSize : Nat) (key : Key) : Option Nat :=
  key.foldl (hashStep maxSize) (some 0)

/-- The method `entries()` (lines 168-177). -/
def entries (s : HashMap V) : List (Key × V) :=
  s.buckets.flatMap fun bucket => bucket.map fun e => (e.key, e.value)

/-- The method `keys()` (lines 142-150). -/
def keys (s : HashMap V) : List Key :=
  s.buckets.flatMap fun bucket => bucket.map fun e => e.key

/-- The method `values()` (lines 155-163). -/
def values (s : HashMap V) : List V :=
  s.buckets.flatMap fun bucket => bucket.map fun e => e.value

/-- The lookup `this.buckets[this.hash(key)]` together with the index; an index that is `NaN` or
outside the table gives `undefined`, on which `.findIndex` throws. -/
def bucketOf (s : HashMap V) (key : Key) : Except Fault (Nat × List (Entry V)) :=
  match hash s.maxSize key with
  | none => .error .typeError
  | some hashKey =>
    match s.buckets[hashKey]? with
    | none => .error .typeError
    | some values => .ok (hashKey, values)

/-- Lines 64-73 of `set`: the part after the load-factor check. -/
def store (s : HashMap V) (key : Key) (value : V) : Except Fault (HashMap V) :=
  match bucketOf s key with
  | .error e => .error e
  | .ok (hashKey, values) =>
    match findIndex (fun val => decide (val.key = key)) values with
    | some keyIndex =>
      .ok { s with buckets :=
              s.buckets.set hashKey (values.modify (fun e => { e with value := value }) keyIndex) }
    | none =>
      .ok { s with size := s.size + 1,
                   buckets := s.buckets.set hashKey (values ++ [{ key := key, value := value }]) }

/-- The loop of `doubleBucketSize` (lines 49-51), given the function it calls. -/
def reinsert (setFn : HashMap V → Key → V → Except Fault (HashMap V)) :
    List (Key × V) → HashMap V → Except Fault (HashMap V)
  | [], s => .ok s
  | (key, value) :: rest, s =>
    match setFn s key value with
    | .error e => .error e
    | .ok s1 => reinsert setFn rest s1

mutual

/-- The method `set(key, value)` (lines 59-74); the first argument bounds the depth of
nested calls. -/
def set : Nat → HashMap V → Key → V → Except Fault (HashMap V)
  | 0, _, _, _ => .error .outOfFuel
  | fuel + 1, s, key, value =>
    if 4 * s.size > 3 * (s.maxSize : Int) then
      match doubleBucketSize fuel s with
      | .error e => .error e
      | .ok s1 => store s1 key value
    else store s key value

/-- The method `doubleBucketSize()` (lines 44-52), for `maxSize * 2` below `2 ^ 32`, the
longest table `Array.from` builds. -/
def doubleBucketSize : Nat → HashMap V → Except Fault (HashMap V)
  | 0, _ => .error .outOfFuel
  | fuel + 1, s =>
    let oldValues := entries s
    reinsert (set fuel) oldValues
      { maxSize := s.maxSize * 2, size := 0, buckets := emptyBuckets (s.maxSize * 2) }

end

/-- The method `get(key)` (lines 81-90); `none` is `null`. -/
def get (s : HashMap V) (key : Key) : Except Fault (Option V) :=
  match bucketOf s key with
  | .error e => .error e
  | .ok (_, values) =>
    match findIndex (fun val => decide (val.key = key)) values with
    | some keyIndex => .ok (values[keyIndex]?.map fun e => e.value)
    | none => .ok none

/-- The method `has(key)` (lines 96-105). -/
def has (s : HashMap V) (key : Key) : Except Fault Bool :=
  match bucketOf s key with
  | .error e => .error e
  | .ok (_, values) =>
    match findIndex (fun val => decide (val.key = key)) values with
    | some _ => .ok true
    | none => .ok false

/-- The method `remove(key)` (lines 111-122): the state afterwards and the returned flag. -/
def remove (s : HashMap V) (key : Key) : Except Fault (HashMap V × Bool) :=
  match bucketOf s key with
  | .error e => .error e
  | .ok (hashKey, values) =>
    match findIndex (fun val => decide (val.key = key)) values with
    | some keyIndex =>
      .ok ({ s with size := s.size - 1,
                    buckets := s.buckets.set hashKey (values.eraseIdx keyIndex) }, true)
    | none => .ok (s, false)

/-- The method `length()` (lines 127-129). -/
def length (s : HashMap V) : Int := s.size

/-- The method `clear()` (lines 133-137). -/
def clear (_s : HashMap V) : HashMap V :=
  { maxSize := 16, size := 0, buckets := emptyBuckets 16 }

/-! ### Definitions used to state and prove the properties

None of these is part of the class; the theorems below relate them to the methods. -/

/-- The value of `hash` as a number, for a positive capacity. -/
def hashN (m : Nat) (key : Key) : Nat := key.foldl (fun h c => (31 * h + c) % m) 0

/-- The chain that `hash` selects for a key. -/
def chainAt (s : HashMap V) (k : Key) : List (Entry V) :=
  (s.buckets[hashN s.maxSize k]?).getD []

/-- The value stored under a key, if any. -/
def lk (s : HashMap V) (k : Key) : Option V := chainGet k (chainAt s k)

/-- The representation invariant of the table. -/
structure WF (s : HashMap V) : Prop where
  pos : 0 < s.maxSize
  len : s.buckets.length = s.maxSize
  placed : ∀ i ch, s.buckets[i]? = some ch → ∀ e ∈ ch, hashN s.maxSize e.key = i
  nodup : ∀ ch ∈ s.buckets, (chainKeys ch).Nodup
  count : s.size = ((entries s).length : Int)

/-- What `set` does to a well-formed state when it does not resize. -/
def put (s : HashMap V) (k : Key) (v : V) : HashMap V :=
  { maxSize := s.maxSize,
    size := if (lk s k).isSome then s.size else s.size + 1,
    buckets := s.buckets.set (hashN s.maxSize k) (chainSet k v (chainAt s k)) }

/-- What `remove` does to a well-formed state. -/
def del (s : HashMap V) (k : Key) : HashMap V :=
  if (lk s k).isSome then
    { maxSize := s.maxSize,
      size := s.size - 1,
      buckets := s.buckets.set (hashN s.maxSize k) (chainErase k (chainAt s k)) }
  else s

/-- The fresh table of capacity `n` that `doubleBucketSize` starts from. -/
def blank (n : Nat) : HashMap V := { maxSize := n, size := 0, buckets := emptyBuckets n }

/-- Inserting a list of pairs one after the other, without resizing. -/
def putAll (l : List (Key × V)) (t : HashMap V) : HashMap V :=
  l.foldl (fun t p => put t p.1 p.2) t

/-- The last value a list of pairs gives to a key, starting from `acc`. -/
def lastVal (k : Key) (l : List (Key × V)) (acc : Option V) : Option V :=
  l.foldl (fun acc p => if p.1 = k then some p.2 else acc) acc

/-- The table after `doubleBucketSize`, when reinsertion does not resize again. -/
def grow (s : HashMap V) : HashMap V := putAll (entries s) (blank (s.maxSize * 2))

/-- The invariant of reachable states: well-formed, and at most one entry above the
load-factor threshold. -/
structure Inv (s : HashMap V) : Prop where
  wf : WF s
  load : 4 * s.size ≤ 3 * (s.maxSize : Int) + 4

/-- What `set` does to a reachable state. -/
def setP (s : HashMap V) (k : Key) (v : V) : HashMap V :=
  if 4 * s.size > 3 * (s.maxSize : Int) then put (grow s) k v else put s k v

/-! ### Sequences of calls and reachable states -/

/-- A call of the public interface that changes the table. -/
inductive Op (V : Type) where
  | set (key : Key) (value : V)
  | remove (key : Key)
  | clear

/-- Perform one call. -/
def step (fuel : Nat) (s : HashMap V) : Op V → Except Fault (HashMap V)
  | .set key value => set fuel s key value
  | .remove key =>
    match remove s key with
    | .error e => .error e
    | .ok (s1, _) => .ok s1
  | .clear => .ok (clear s)

/-- Perform a sequence of calls, first to last. -/
def run (fuel : Nat) : List (Op V) → HashMap V → Except Fault (HashMap V)
  | [], s => .ok s
  | o :: os, s =>
    match step fuel s o with
    | .error e => .error e
    | .ok s1 => run fuel os s1

/-- The states that some sequence of `set`, `remove` and `clear` calls produces from a
newly constructed table. -/
def Reachable (s : HashMap V) : Prop :=
  ∃ (fuel : Nat) (ops : List (Op V)), run fuel ops new = .ok s

/-- What one call does to a reachable state. -/
def stepP (s : HashMap V) : Op V → HashMap V
  | .set key value => setP s key value
  | .remove key => del s key
  | .clear => clear s

/-- What a sequence of calls does to a reachable state. -/
def runP (ops : List (Op V)) (s : HashMap V) : HashMap V := ops.foldl stepP s

/-- A call that leaves the entry of `k` alone: not `clear`, not `remove(k)`, not `set(k, _)`. -/
def Op.avoids (k : Key) : Op V → Prop
  | .set key _ => key ≠ k
  | .remove key => key ≠ k
  | .clear => False

/-! ### Concrete inputs -/

/-- Thirteen `set` calls on the keys `[1]`, ..., `[13]`. -/
def otherSets : List (Op Nat) := (List.range 13).map fun i => Op.set [i + 1] i

/-- The table after `set([1], 5); set([2], 6)` on a new table. -/
def twoKeys : HashMap Nat :=
  { maxSize := 16, size := 2,
    buckets := [[], [{ key := [1], value := 5 }], [{ key := [2], value := 6 }]]
      ++ List.replicate 13 [] }

/-- Thirteen pairs with the distinct keys `[1]`, ..., `[13]`. -/
def thirteenPairs : List (Key × Nat) := (List.range 13).map fun i => ([i + 1], i)

/-- Twelve pairs with the distinct keys `[1]`, ..., `[12]`. -/
def twelvePairs : List (Key × Nat) := (List.range 12).map fun i => ([i + 1], i)

/-! ### Properties named in the claims -/

/-- Every entry stored in the chain at index `i` has `hash(entry.key) = i` against the
current capacity. -/
def Placed (s : HashMap V) : Prop :=
  ∀ i ch, s.buckets[i]? = some ch → ∀ e ∈ ch, hash s.maxSize e.key = some i

/-- The capacity-independent digest of a key, in the spec's words: the polynomial sum of
`charCode_i * 31^(n-1-i)` over the `n` characters, in exact integer arithmetic. -/
def digest (key : Key) : Nat :=
  ((List.range key.length).map fun i => key.getD i 0 * 31 ^ (key.length - 1 - i)).sum

/-- The table after `set` on the 13 distinct keys `[1]`, ..., `[13]`. -/
def thirteenKeys : HashMap Nat := runP (thirteenPairs.map fun p => Op.set p.1 p.2) new

/-- A state that no sequence of calls produces: capacity 1 and one chain holding the key
`[1]` twice. -/
def dupKeys : HashMap Nat :=
  { maxSize := 1, size := 2,
    buckets := [[{ key := [1], value := 5 }, { key := [1], value := 6 }]] }

/-- A state that no sequence of calls produces: capacity 0 with one stored entry. -/
def zeroCapacity : HashMap Nat :=
  { maxSize := 0, size := 1, buckets := [[{ key := [1], value := 5 }]] }

/-- A state that no sequence of calls produces: capacity 1 with three entries, so that
reinsertion inside `doubleBucketSize` resizes again. -/
def crowded : HashMap Nat :=
  { maxSize := 1, size := 3,
    buckets := [[{ key := [1], value := 1 }, { key := [2], value := 2 },
      { key := [3], value := 3 }]] }

/-- The table that `set([2], 7)` returns on `dupKeys`. -/
def dupKeysAfter : HashMap Nat :=
  { maxSize := 2, size := 2,
    buckets := [[{ key := [2], value := 7 }], [{ key := [1], value := 6 }]] }

/-! ### The arithmetic of `hash` in double precision

JavaScript numbers are IEEE 754 doubles.  `hashStep` above computes
`primeNumber * hashCode + key.charCodeAt(i)` exactly; the definitions below round the product
and the sum as the source does.  The two agree for every capacity up to `2 ^ 48`
(`hashDouble_eq_hash`), hence on every table the class can allocate. -/

/-- The number of times `n` is halved before it is below `2 ^ 53`: the exponent of the
unit in the last place of the double nearest to `n`. -/
def halvings : Nat → Nat → Nat
  | 0, _ => 0
  | fuel + 1, n => if n < 2 ^ 53 then 0 else halvings fuel (n / 2) + 1

/-- The bound from which a rounded value is `Infinity`. -/
def doubleLimit : Nat := 2 ^ 1024

/-- The double nearest to the natural number `n`, ties to the even significand;
`none` when it rounds to `Infinity`. -/
def roundDouble (n : Nat) : Option Nat :=
  let ulp := 2 ^ halvings 1024 n
  let q := n / ulp
  let r := n % ulp
  let up := if 2 * r > ulp ∨ (2 * r = ulp ∧ q % 2 = 1) then q + 1 else q
  if up * ulp < doubleLimit then some (up * ulp) else none

/-- One round of the loop of `hash` (lines 35-36) in double precision: the product and
the sum are rounded, `%` is exact; `Infinity % maxSize` and `x % 0` are `NaN`, here `none`. -/
def hashStepDouble (maxSize : Nat) (hashCode : Option Nat) (c : Nat) : Option Nat :=
  match hashCode with
  | none => none
  | some h =>
    match roundDouble (31 * h) with
    | none => none
    | some p =>
      match roundDouble (p + c) with
      | none => none
      | some q => if maxSize = 0 then none else some (q % maxSize)

/-- The method `hash(key)` (lines 31-39) in double precision. -/
def hashDouble (maxSize : Nat) (key : Key) : Option Nat :=
  key.foldl (hashStepDouble maxSize) (some 0)

/-- The key of twelve code units `0xFFFF`. -/
def twelveUnits : Key := List.replicate 12 65535

end HashMap

/-! ## Chains -/

section

variable {V : Type}

theorem findIndex_set_eq (k : Key) (v : V) (c : List (Entry V)) :
    (match findIndex (fun val => decide (val.key = k)) c with
      | some i => c.modify (fun e => { e with value := v }) i
      | none => c ++ [{ key := k, value := v }]) = chainSet k v c := by
  induction c with
  | nil => rfl
  | cons e c ih =>
    by_cases h : e.key = k
    · simp [findIndex, chainSet, h]
    · simp only [findIndex, chainSet, h, decide_False, Bool.false_eq_true, if_false]
      cases hf : findIndex (fun val => decide (val.key = k)) c with
      | none => simp only [hf] at ih; simp [← ih]
      | some i => simp only [hf] at ih; simp [← ih]

theorem findIndex_get_eq (k : Key) (values : List (Entry V)) :
    (match findIndex (fun val => decide (val.key = k)) values with
      | some i => values[i]?.map fun e => e.value
      | none => none) = chainGet k values := by
  induction values with
  | nil => rfl
  | cons e c ih =>
    by_cases h : e.key = k
    · simp [findIndex, chainGet, h]
    · simp only [findIndex, chainGet, h, decide_False, Bool.false_eq_true, if_false]
      cases hf : findIndex (fun val => decide (val.key = k)) c with
      | none => simp only [hf] at ih; simp [← ih]
      | some i => simp only [hf] at ih; simp [← ih]

theorem findIndex_isSome_eq (k : Key) (c : List (Entry V)) :
    (findIndex (fun val => decide (val.key = k)) c).isSome = (chainGet k c).isSome := by
  induction c with
  | nil => rfl
  | cons e c ih =>
    by_cases h : e.key = k
    · simp [findIndex, chainGet, h]
    · simp only [findIndex, chainGet, h, decide_False, Bool.false_eq_true, if_false]
      rw [← ih]
      cases findIndex (fun val => decide (val.key = k)) c <;> rfl

theorem findIndex_erase_eq (k : Key) (c : List (Entry V)) :
    (match findIndex (fun val => decide (val.key = k)) c with
      | some i => c.eraseIdx i
      | none => c) = chainErase k c := by
  induction c with
  | nil => rfl
  | cons e c ih =>
    by_cases h : e.key = k
    · simp [findIndex, chainErase, h]
    · simp only [findIndex, chainErase, h, decide_False, Bool.false_eq_true, if_false]
      cases hf : findIndex (fun val => decide (val.key = k)) c with
      | none => simp only [hf] at ih; simp [← ih]
      | some i => simp only [hf] at ih; simp [← ih]

theorem chainGet_eq_none_iff (k : Key) (c : List (Entry V)) :
    chainGet k c = none ↔ k ∉ chainKeys c := by
  induction c with
  | nil => simp [chainGet, chainKeys]
  | cons e c ih =>
    by_cases h : e.key = k
    · simp [chainGet, chainKeys, h]
    · have h2 : ¬ k = e.key := fun h3 => h h3.symm
      simp only [chainGet, h, if_false, ih, chainKeys, List.map_cons, List.mem_cons, h2, false_or]

theorem chainGet_mem (k : Key) (v : V) (c : List (Entry V)) (h : chainGet k c = some v) :
    ({ key := k, value := v } : Entry V) ∈ c := by
  induction c with
  | nil => simp [chainGet] at h
  | cons e c ih =>
    by_cases hk : e.key = k
    · simp only [chainGet, hk, if_true, Option.some.injEq] at h
      cases e
      simp_all
    · simp only [chainGet, hk, if_false] at h
      exact List.mem_cons_of_mem _ (ih h)

theorem chainGet_of_mem (k : Key) (v : V) (c : List (Entry V)) (hn : (chainKeys c).Nodup)
    (h : ({ key := k, value := v } : Entry V) ∈ c) : chainGet k c = some v := by
  induction c with
  | nil => simp at h
  | cons e c ih =>
    simp only [chainKeys, List.map_cons, List.nodup_cons] at hn
    rcases List.mem_cons.1 h with h1 | h1
    · subst h1; simp [chainGet]
    · have hk : e.key ≠ k := by
        intro hek
        apply hn.1
        rw [hek]
        exact List.mem_map.2 ⟨_, h1, rfl⟩
      simp only [chainGet, hk, if_false]
      exact ih hn.2 h1

theorem chainGet_chainSet (k k2 : Key) (v : V) (c : List (Entry V)) :
    chainGet k2 (chainSet k v c) = if k2 = k then some v else chainGet k2 c := by
  induction c with
  | nil =>
    by_cases h : k2 = k
    · simp [chainGet, chainSet, h]
    · have h2 : ¬ k = k2 := fun h3 => h h3.symm
      simp [chainGet, chainSet, h, h2]
  | cons e c ih =>
    by_cases he : e.key = k
    · by_cases h : k2 = k
      · simp [chainGet, chainSet, he, h]
      · have h2 : ¬ k = k2 := fun h3 => h h3.symm
        simp [chainGet, chainSet, he, h, h2]
    · by_cases h : k2 = k
      · subst h
        simp [chainGet, chainSet, he, ih]
      · simp [chainGet, chainSet, he, h, ih]

theorem chainKeys_chainSet (k : Key) (v : V) (c : List (Entry V)) :
    chainKeys (chainSet k v c) = if k ∈ chainKeys c then chainKeys c else chainKeys c ++ [k] := by
  induction c with
  | nil => simp [chainSet, chainKeys]
  | cons e c ih =>
    by_cases he : e.key = k
    · simp [chainSet, chainKeys, he]
    · have h2 : ¬ k = e.key := fun h3 => he h3.symm
      simp only [chainKeys] at ih
      simp only [chainSet, he, if_false, chainKeys, List.map_cons, List.mem_cons, h2, false_or, ih]
      split <;> simp

theorem chainSet_length (k : Key) (v : V) (c : List (Entry V)) :
    (chainSet k v c).length = if (chainGet k c).isSome then c.length else c.length + 1 := by
  induction c with
  | nil => simp [chainSet, chainGet]
  | cons e c ih =>
    by_cases he : e.key = k
    · simp [chainSet, chainGet, he]
    · simp only [chainSet, he, if_false, chainGet, List.length_cons, ih]
      split <;> rfl

theorem chainSet_nodup (k : Key) (v : V) (c : List (Entry V)) (hn : (chainKeys c).Nodup) :
    (chainKeys (chainSet k v c)).Nodup := by
  rw [chainKeys_chainSet]
  split
  · exact hn
  · next h =>
    rw [List.nodup_append]
    refine ⟨hn, List.nodup_singleton _, ?_⟩
    intro a ha hb
    rw [List.mem_singleton] at hb
    subst hb
    exact h ha

theorem chainKeys_chainErase_sub (k : Key) (c : List (Entry V)) :
    ∀ e ∈ chainErase k c, e ∈ c := by
  induction c with
  | nil => simp [chainErase]
  | cons e c ih =>
    intro x hx
    by_cases he : e.key = k
    · simp only [chainErase, he, if_true] at hx
      exact List.mem_cons_of_mem _ hx
    · simp only [chainErase, he, if_false, List.mem_cons] at hx
      rcases hx with hx | hx
      · subst hx; exact List.mem_cons_self _ _
      · exact List.mem_cons_of_mem _ (ih x hx)

theorem chainErase_eq_filter (k : Key) (c : List (Entry V)) (hn : (chainKeys c).Nodup) :
    chainErase k c = c.filter fun e => decide (e.key ≠ k) := by
  induction c with
  | nil => rfl
  | cons e c ih =>
    simp only [chainKeys, List.map_cons, List.nodup_cons] at hn
    by_cases he : e.key = k
    · simp only [chainErase, he, if_true, ne_eq, not_true_eq_false, decide_False,
        Bool.false_eq_true, not_false_eq_true, List.filter_cons_of_neg]
      symm
      rw [List.filter_eq_self]
      intro x hx
      have : x.key ≠ k := by
        intro hxk
        apply hn.1
        rw [he, ← hxk]
        exact List.mem_map.2 ⟨_, hx, rfl⟩
      simpa using this
    · simp only [chainErase, he, if_false]
      rw [List.filter_cons_of_pos (by simpa using he)]
      rw [ih hn.2]

theorem chainErase_of_not_mem (k : Key) (c : List (Entry V)) (h : k ∉ chainKeys c) :
    chainErase k c = c := by
  induction c with
  | nil => rfl
  | cons e c ih =>
    simp only [chainKeys, List.map_cons, List.mem_cons, not_or] at h
    have he : ¬ e.key = k := fun h3 => h.1 h3.symm
    simp only [chainErase, he, if_false]
    rw [ih h.2]

theorem chainErase_length (k : Key) (c : List (Entry V)) (h : (chainGet k c).isSome = true) :
    (chainErase k c).length + 1 = c.length := by
  induction c with
  | nil => simp [chainGet] at h
  | cons e c ih =>
    by_cases he : e.key = k
    · simp [chainErase, he]
    · simp only [chainGet, he, if_false] at h
      simp only [chainErase, he, if_false, List.length_cons, ih h]

theorem chainGet_chainErase (k k2 : Key) (c : List (Entry V)) (hn : (chainKeys c).Nodup) :
    chainGet k2 (chainErase k c) = if k2 = k then none else chainGet k2 c := by
  induction c with
  | nil => simp [chainErase, chainGet]
  | cons e c ih =>
    simp only [chainKeys, List.map_cons, List.nodup_cons] at hn
    by_cases he : e.key = k
    · by_cases h : k2 = k
      · subst h
        simp only [chainErase, he, if_true]
        rw [chainGet_eq_none_iff]
        rw [← he]
        exact hn.1
      · have h2 : ¬ e.key = k2 := fun h3 => h (h3.symm.trans he)
        have h4 : ¬ k = k2 := fun h3 => h h3.symm
        simp [chainErase, chainGet, he, h, h4]
    · by_cases h : k2 = k
      · subst h
        have ih2 := ih hn.2
        simp only [if_true] at ih2
        simp [chainErase, chainGet, he, ih2]
      · have ih2 := ih hn.2
        simp only [h, if_false] at ih2
        simp [chainErase, chainGet, he, h, ih2]

theorem mem_chainSet (k : Key) (v : V) (c : List (Entry V)) :
    ∀ e ∈ chainSet k v c, e.key = k ∨ e ∈ c := by
  induction c with
  | nil =>
    intro e he
    simp only [chainSet, List.mem_singleton] at he
    subst he
    exact Or.inl rfl
  | cons x c ih =>
    intro e he
    by_cases hx : x.key = k
    · simp only [chainSet, hx, if_true, List.mem_cons] at he
      rcases he with he | he
      · subst he
        exact Or.inl rfl
      · exact Or.inr (List.mem_cons_of_mem _ he)
    · simp only [chainSet, hx, if_false, List.mem_cons] at he
      rcases he with he | he
      · subst he
        exact Or.inr (List.mem_cons_self _ _)
      · rcases ih e he with h | h
        · exact Or.inl h
        · exact Or.inr (List.mem_cons_of_mem _ h)

theorem chainErase_nodup (k : Key) (c : List (Entry V)) (hn : (chainKeys c).Nodup) :
    (chainKeys (chainErase k c)).Nodup := by
  rw [chainErase_eq_filter k c hn]
  unfold chainKeys at *
  exact (List.Nodup.sublist (List.Sublist.map _ (List.filter_sublist c)) hn)

end

/-! ## The table -/

namespace HashMap

variable {V : Type}

theorem hashStep_foldl (m : Nat) (hm : 0 < m) (key : Key) (h0 : Nat) :
    key.foldl (hashStep m) (some h0) = some (key.foldl (fun h c => (31 * h + c) % m) h0) := by
  induction key generalizing h0 with
  | nil => rfl
  | cons c key ih =>
    have hm2 : ¬ m = 0 := by omega
    simp only [List.foldl_cons, hashStep, hm2, if_false]
    exact ih _

theorem hash_eq_hashN (m : Nat) (hm : 0 < m) (key : Key) : hash m key = some (hashN m key) :=
  hashStep_foldl m hm key 0

theorem foldl_mod_lt (m : Nat) (hm : 0 < m) (key : Key) (h0 : Nat) (h : h0 < m) :
    key.foldl (fun h c => (31 * h + c) % m) h0 < m := by
  induction key generalizing h0 with
  | nil => exact h
  | cons c key ih =>
    simp only [List.foldl_cons]
    exact ih _ (Nat.mod_lt _ hm)

theorem hashN_lt (m : Nat) (hm : 0 < m) (key : Key) : hashN m key < m :=
  foldl_mod_lt m hm key 0 hm

theorem bucket_at (s : HashMap V) (h : WF s) (k : Key) :
    s.buckets[hashN s.maxSize k]? = some (chainAt s k) := by
  have hlt : hashN s.maxSize k < s.buckets.length := by
    rw [h.len]; exact hashN_lt _ h.pos _
  unfold chainAt
  rw [List.getElem?_eq_getElem hlt]
  rfl

theorem bucketOf_eq (s : HashMap V) (h : WF s) (k : Key) :
    bucketOf s k = .ok (hashN s.maxSize k, chainAt s k) := by
  unfold bucketOf
  rw [hash_eq_hashN _ h.pos]
  simp only [bucket_at s h k]

theorem get_eq (s : HashMap V) (h : WF s) (k : Key) : get s k = .ok (lk s k) := by
  unfold get
  rw [bucketOf_eq s h k]
  simp only
  have h1 := findIndex_get_eq k (chainAt s k)
  cases hf : findIndex (fun val => decide (val.key = k)) (chainAt s k) with
  | none => simp only [hf] at h1 ⊢; rw [lk, ← h1]
  | some i => simp only [hf] at h1 ⊢; rw [lk, ← h1]

theorem has_eq (s : HashMap V) (h : WF s) (k : Key) : has s k = .ok (lk s k).isSome := by
  unfold has
  rw [bucketOf_eq s h k]
  simp only
  have h1 := findIndex_isSome_eq k (chainAt s k)
  cases hf : findIndex (fun val => decide (val.key = k)) (chainAt s k) with
  | none => simp only [hf] at h1 ⊢; rw [lk, ← h1]; rfl
  | some i => simp only [hf] at h1 ⊢; rw [lk, ← h1]; rfl

theorem store_eq (s : HashMap V) (h : WF s) (k : Key) (v : V) :
    store s k v = .ok (put s k v) := by
  unfold store
  rw [bucketOf_eq s h k]
  simp only
  have h1 := findIndex_isSome_eq k (chainAt s k)
  have h2 := findIndex_set_eq k v (chainAt s k)
  cases hf : findIndex (fun val => decide (val.key = k)) (chainAt s k) with
  | none =>
    simp only [hf] at h1 h2 ⊢
    simp only [put, lk, ← h1, ← h2, Option.isSome_none, Bool.false_eq_true, if_false]
  | some i =>
    simp only [hf] at h1 h2 ⊢
    simp only [put, lk, ← h1, ← h2, Option.isSome_some, if_true]

theorem remove_eq (s : HashMap V) (h : WF s) (k : Key) :
    remove s k = .ok (del s k, (lk s k).isSome) := by
  unfold remove
  rw [bucketOf_eq s h k]
  simp only
  have h1 := findIndex_isSome_eq k (chainAt s k)
  have h2 := findIndex_erase_eq k (chainAt s k)
  cases hf : findIndex (fun val => decide (val.key = k)) (chainAt s k) with
  | none =>
    simp only [hf] at h1 h2 ⊢
    simp only [del, lk, ← h1, Option.isSome_none, Bool.false_eq_true, if_false]
  | some i =>
    simp only [hf] at h1 h2 ⊢
    simp only [del, lk, ← h1, ← h2, Option.isSome_some, if_true]

/-! ### `put` and `del` keep the table well-formed -/

theorem entries_length_set (bs : List (List (Entry V))) (i : Nat) (ch2 : List (Entry V))
    (hi : i < bs.length) :
    ((bs.set i ch2).flatMap fun bucket => bucket.map fun e => (e.key, e.value)).length
        + ((bs[i]?).getD []).length
      = (bs.flatMap fun bucket => bucket.map fun e => (e.key, e.value)).length + ch2.length := by
  induction bs generalizing i with
  | nil => simp at hi
  | cons b bs ih =>
    cases i with
    | zero =>
      simp only [List.set_cons_zero, List.flatMap_cons, List.length_append, List.length_map,
        List.getElem?_cons_zero, Option.getD_some]
      omega
    | succ i =>
      have hi2 : i < bs.length := by simpa using hi
      have := ih i hi2
      simp only [List.set_cons_succ, List.flatMap_cons, List.length_append, List.length_map,
        List.getElem?_cons_succ]
      omega

theorem put_maxSize (s : HashMap V) (k : Key) (v : V) : (put s k v).maxSize = s.maxSize := rfl

theorem put_size (s : HashMap V) (k : Key) (v : V) :
    (put s k v).size = if (lk s k).isSome then s.size else s.size + 1 := rfl

theorem del_maxSize (s : HashMap V) (k : Key) : (del s k).maxSize = s.maxSize := by
  unfold del; split <;> rfl

theorem del_size (s : HashMap V) (k : Key) :
    (del s k).size = if (lk s k).isSome then s.size - 1 else s.size := by
  unfold del; split <;> rfl

theorem del_of_absent (s : HashMap V) (k : Key) (h : (lk s k).isSome = false) : del s k = s := by
  unfold del; simp [h]

theorem WF_put (s : HashMap V) (h : WF s) (k : Key) (v : V) : WF (put s k v) := by
  have hlt : hashN s.maxSize k < s.buckets.length := by
    rw [h.len]; exact hashN_lt _ h.pos _
  refine ⟨h.pos, ?_, ?_, ?_, ?_⟩
  · simp only [put, List.length_set]; exact h.len
  · intro i ch hch e he
    simp only [put] at hch ⊢
    rw [List.getElem?_set] at hch
    by_cases hi : hashN s.maxSize k = i
    · simp only [hi, if_true] at hch
      split at hch
      · cases hch
        rcases mem_chainSet k v _ e he with h1 | h1
        · rw [h1]; exact hi
        · exact h.placed i _ (hi ▸ bucket_at s h k) e h1
      · cases hch
    · simp only [hi, if_false] at hch
      exact h.placed i ch hch e he
  · intro ch hch
    simp only [put] at hch
    rcases List.mem_or_eq_of_mem_set hch with h1 | h1
    · exact h.nodup ch h1
    · rw [h1]
      apply chainSet_nodup
      apply h.nodup
      exact List.getElem?_mem (bucket_at s h k)
  · have h1 := entries_length_set s.buckets (hashN s.maxSize k) (chainSet k v (chainAt s k)) hlt
    have h2 := h.count
    have h3 := chainSet_length k v (chainAt s k)
    simp only [put, entries, lk] at h1 h2 h3 ⊢
    change _ + (chainAt s k).length = _ at h1
    by_cases h4 : (chainGet k (chainAt s k)).isSome = true
    · rw [if_pos h4] at h3 ⊢; omega
    · rw [if_neg h4] at h3 ⊢; omega

theorem WF_del (s : HashMap V) (h : WF s) (k : Key) : WF (del s k) := by
  have hlt : hashN s.maxSize k < s.buckets.length := by
    rw [h.len]; exact hashN_lt _ h.pos _
  unfold del
  split
  · rename_i hsome
    refine ⟨h.pos, ?_, ?_, ?_, ?_⟩
    · simp only [List.length_set]; exact h.len
    · intro i ch hch e he
      simp only at hch ⊢
      rw [List.getElem?_set] at hch
      by_cases hi : hashN s.maxSize k = i
      · simp only [hi, if_true] at hch
        split at hch
        · cases hch
          exact h.placed i _ (hi ▸ bucket_at s h k) e (chainKeys_chainErase_sub k _ e he)
        · cases hch
      · simp only [hi, if_false] at hch
        exact h.placed i ch hch e he
    · intro ch hch
      simp only at hch
      rcases List.mem_or_eq_of_mem_set hch with h1 | h1
      · exact h.nodup ch h1
      · rw [h1]
        apply chainErase_nodup
        apply h.nodup
        exact List.getElem?_mem (bucket_at s h k)
    · have h1 := entries_length_set s.buckets (hashN s.maxSize k) (chainErase k (chainAt s k)) hlt
      have h2 := h.count
      have h3 := chainErase_length k (chainAt s k) hsome
      simp only [entries] at h1 h2 ⊢
      change _ + (chainAt s k).length = _ at h1
      omega
  · exact h

theorem chainAt_set_same (s : HashMap V) (h : WF s) (k k2 : Key) (ch : List (Entry V))
    (z : Int) (hk : hashN s.maxSize k2 = hashN s.maxSize k) :
    chainAt { maxSize := s.maxSize, size := z,
              buckets := s.buckets.set (hashN s.maxSize k) ch } k2 = ch := by
  have hlt : hashN s.maxSize k < s.buckets.length := by
    rw [h.len]; exact hashN_lt _ h.pos _
  simp only [chainAt, hk, List.getElem?_set, if_true, hlt, Option.getD_some]

theorem chainAt_set_other (s : HashMap V) (k k2 : Key) (ch : List (Entry V))
    (z : Int) (hk : hashN s.maxSize k2 ≠ hashN s.maxSize k) :
    chainAt { maxSize := s.maxSize, size := z,
              buckets := s.buckets.set (hashN s.maxSize k) ch } k2 = chainAt s k2 := by
  have hk2 : ¬ hashN s.maxSize k = hashN s.maxSize k2 := fun h => hk h.symm
  simp only [chainAt, List.getElem?_set, hk2, if_false]

theorem lk_put (s : HashMap V) (h : WF s) (k k2 : Key) (v : V) :
    lk (put s k v) k2 = if k2 = k then some v else lk s k2 := by
  by_cases hk : hashN s.maxSize k2 = hashN s.maxSize k
  · unfold lk put
    rw [chainAt_set_same s h k k2 _ _ hk, chainGet_chainSet]
    simp only [chainAt, hk]
  · have hne : k2 ≠ k := fun h2 => hk (by rw [h2])
    unfold lk put
    rw [chainAt_set_other s k k2 _ _ hk]
    simp only [hne, if_false]

theorem lk_del (s : HashMap V) (h : WF s) (k k2 : Key) :
    lk (del s k) k2 = if k2 = k then none else lk s k2 := by
  unfold del
  split
  · by_cases hk : hashN s.maxSize k2 = hashN s.maxSize k
    · unfold lk
      rw [chainAt_set_same s h k k2 _ _ hk, chainGet_chainErase]
      · simp only [chainAt, hk]
      · apply h.nodup
        exact List.getElem?_mem (bucket_at s h k)
    · have hne : k2 ≠ k := fun h2 => hk (by rw [h2])
      unfold lk
      rw [chainAt_set_other s k k2 _ _ hk]
      simp only [hne, if_false]
  · rename_i hnone
    by_cases hkk : k2 = k
    · subst hkk
      simp only [if_true]
      simpa using hnone
    · simp only [hkk, if_false]

/-! ### The table as a list of entries -/

theorem keys_eq_map (s : HashMap V) : keys s = (entries s).map Prod.fst := by
  unfold keys entries
  induction s.buckets with
  | nil => rfl
  | cons b bs ih => simp only [List.flatMap_cons, List.map_append, List.map_map, ih]; rfl

theorem values_eq_map (s : HashMap V) : values s = (entries s).map Prod.snd := by
  unfold values entries
  induction s.buckets with
  | nil => rfl
  | cons b bs ih => simp only [List.flatMap_cons, List.map_append, List.map_map, ih]; rfl

theorem mem_entries_iff (s : HashMap V) (h : WF s) (k : Key) (v : V) :
    (k, v) ∈ entries s ↔ lk s k = some v := by
  constructor
  · intro hm
    simp only [entries, List.mem_flatMap, List.mem_map, Prod.mk.injEq] at hm
    obtain ⟨ch, hch, e, he, hk, hv⟩ := hm
    obtain ⟨i, hi⟩ := List.getElem?_of_mem hch
    have hp := h.placed i ch hi e he
    rw [hk] at hp
    have hc : chainAt s k = ch := by
      unfold chainAt
      rw [hp, hi]
      rfl
    unfold lk
    rw [hc]
    apply chainGet_of_mem k v ch (h.nodup ch hch)
    cases e
    simp only at hk hv
    subst hk hv
    exact he
  · intro hl
    have hm := chainGet_mem k v _ hl
    simp only [entries, List.mem_flatMap, List.mem_map, Prod.mk.injEq]
    exact ⟨chainAt s k, List.getElem?_mem (bucket_at s h k), _, hm, rfl, rfl⟩

theorem keys_nodup_aux (m : Nat) (bs : List (List (Entry V))) (o : Nat)
    (hp : ∀ i ch, bs[i]? = some ch → ∀ e ∈ ch, hashN m e.key = o + i)
    (hn : ∀ ch ∈ bs, (chainKeys ch).Nodup) :
    ((bs.flatMap fun bucket => bucket.map fun e => (e.key, e.value)).map Prod.fst).Nodup ∧
      ∀ k ∈ (bs.flatMap fun bucket => bucket.map fun e => (e.key, e.value)).map Prod.fst,
        o ≤ hashN m k := by
  induction bs generalizing o with
  | nil => simp
  | cons b bs ih =>
    have hp2 : ∀ i ch, bs[i]? = some ch → ∀ e ∈ ch, hashN m e.key = (o + 1) + i := by
      intro i ch hi e he
      have := hp (i + 1) ch (by simpa using hi) e he
      omega
    have hn2 : ∀ ch ∈ bs, (chainKeys ch).Nodup := fun ch hch => hn ch (List.mem_cons_of_mem _ hch)
    obtain ⟨ih1, ih2⟩ := ih (o + 1) hp2 hn2
    have hb : ∀ k ∈ (b.map fun e => (e.key, e.value)).map Prod.fst, hashN m k = o := by
      intro k hk
      simp only [List.map_map, List.mem_map, Function.comp] at hk
      obtain ⟨e, he, hek⟩ := hk
      rw [← hek]
      exact hp 0 b (by simp) e he
    simp only [List.flatMap_cons, List.map_append]
    constructor
    · rw [List.nodup_append]
      refine ⟨?_, ih1, ?_⟩
      · have := hn b (List.mem_cons_self _ _)
        simpa [chainKeys, List.map_map, Function.comp] using this
      · intro k hk1 hk2
        have h1 := hb k hk1
        have h2 := ih2 k hk2
        omega
    · intro k hk
      rcases List.mem_append.1 hk with hk | hk
      · exact le_of_eq (hb k hk).symm
      · have := ih2 k hk
        omega

theorem entries_keys_nodup (s : HashMap V) (h : WF s) : ((entries s).map Prod.fst).Nodup :=
  (keys_nodup_aux s.maxSize s.buckets 0
    (fun i ch hi e he => by rw [h.placed i ch hi e he]; omega) h.nodup).1

theorem entries_nodup (s : HashMap V) (h : WF s) : (entries s).Nodup :=
  List.Nodup.of_map _ (entries_keys_nodup s h)

/-- Two well-formed tables that answer every lookup alike hold equally many entries. -/
theorem size_eq_of_lk_eq (s t : HashMap V) (hs : WF s) (ht : WF t)
    (h : ∀ k, lk s k = lk t k) : s.size = t.size := by
  rw [hs.count, ht.count]
  have hperm : (entries s).Perm (entries t) := by
    rw [List.perm_ext_iff_of_nodup (entries_nodup s hs) (entries_nodup t ht)]
    intro p
    obtain ⟨k, v⟩ := p
    rw [mem_entries_iff s hs, mem_entries_iff t ht, h]
  rw [hperm.length_eq]

theorem entries_blank (n : Nat) : entries (blank n : HashMap V) = [] := by
  simp only [entries, blank, emptyBuckets]
  induction n with
  | zero => rfl
  | succ n ih => simp only [List.replicate_succ, List.flatMap_cons, List.map_nil, List.nil_append, ih]

theorem WF_blank (n : Nat) (hn : 0 < n) : WF (blank n : HashMap V) := by
  refine ⟨hn, ?_, ?_, ?_, ?_⟩
  · simp [blank, emptyBuckets]
  · intro i ch hi e he
    have := List.getElem?_mem hi
    simp only [blank, emptyBuckets, List.mem_replicate] at this
    rw [this.2] at he
    simp at he
  · intro ch hch
    simp only [blank, emptyBuckets, List.mem_replicate] at hch
    rw [hch.2]
    exact List.nodup_nil
  · rw [entries_blank]; rfl

theorem lk_blank (n : Nat) (hn : 0 < n) (k : Key) : lk (blank n : HashMap V) k = none := by
  cases h : lk (blank n : HashMap V) k with
  | none => rfl
  | some v =>
    have := (mem_entries_iff _ (WF_blank n hn) k v).2 h
    rw [entries_blank] at this
    simp at this

theorem WF_new : WF (new : HashMap V) := WF_blank 16 (by decide)

theorem lk_new (k : Key) : lk (new : HashMap V) k = none := lk_blank 16 (by decide) k

theorem WF_putAll (l : List (Key × V)) (t : HashMap V) (h : WF t) : WF (putAll l t) := by
  induction l generalizing t with
  | nil => exact h
  | cons p l ih => exact ih _ (WF_put t h p.1 p.2)

theorem putAll_maxSize (l : List (Key × V)) (t : HashMap V) :
    (putAll l t).maxSize = t.maxSize := by
  induction l generalizing t with
  | nil => rfl
  | cons p l ih => exact (ih _).trans (put_maxSize t p.1 p.2)

theorem lk_putAll (l : List (Key × V)) (t : HashMap V) (h : WF t) (k : Key) :
    lk (putAll l t) k = lastVal k l (lk t k) := by
  induction l generalizing t with
  | nil => rfl
  | cons p l ih =>
    simp only [putAll, lastVal, List.foldl_cons]
    have := ih _ (WF_put t h p.1 p.2)
    simp only [putAll, lastVal] at this
    rw [this, lk_put t h]
    by_cases hk : k = p.1
    · simp [hk]
    · have hk2 : ¬ p.1 = k := fun h2 => hk h2.symm
      simp [hk, hk2]

theorem lastVal_of_not_mem (k : Key) (l : List (Key × V)) (acc : Option V)
    (h : k ∉ l.map Prod.fst) : lastVal k l acc = acc := by
  induction l generalizing acc with
  | nil => rfl
  | cons p l ih =>
    simp only [List.map_cons, List.mem_cons, not_or] at h
    have hk2 : ¬ p.1 = k := fun h2 => h.1 h2.symm
    simp only [lastVal, List.foldl_cons, hk2, if_false]
    exact ih _ h.2

theorem lastVal_eq_some_iff (k : Key) (v : V) (l : List (Key × V))
    (hn : (l.map Prod.fst).Nodup) : lastVal k l none = some v ↔ (k, v) ∈ l := by
  induction l with
  | nil => simp [lastVal]
  | cons p l ih =>
    simp only [List.map_cons, List.nodup_cons] at hn
    obtain ⟨k1, v1⟩ := p
    by_cases hk : k1 = k
    · subst hk
      simp only [lastVal, List.foldl_cons, if_true]
      have := lastVal_of_not_mem k1 l (some v1) hn.1
      simp only [lastVal] at this
      rw [this]
      constructor
      · intro h; cases h; exact List.mem_cons_self _ _
      · intro h
        rcases List.mem_cons.1 h with h | h
        · cases h; rfl
        · exact absurd (List.mem_map.2 ⟨_, h, rfl⟩) hn.1
    · have hk2 : ¬ k = k1 := fun h2 => hk h2.symm
      simp only [lastVal, List.foldl_cons, hk, if_false, List.mem_cons, Prod.mk.injEq, hk2,
        false_and, false_or]
      exact ih hn.2

theorem WF_grow (s : HashMap V) (h : WF s) : WF (grow s) :=
  WF_putAll _ _ (WF_blank _ (by have := h.pos; omega))

theorem grow_maxSize (s : HashMap V) : (grow s).maxSize = s.maxSize * 2 := putAll_maxSize _ _

theorem lk_grow (s : HashMap V) (h : WF s) (k : Key) : lk (grow s) k = lk s k := by
  have hpos : 0 < s.maxSize * 2 := by have := h.pos; omega
  unfold grow
  rw [lk_putAll _ _ (WF_blank _ hpos), lk_blank _ hpos]
  cases hl : lk s k with
  | some v =>
    rw [lastVal_eq_some_iff k v _ (entries_keys_nodup s h), mem_entries_iff s h]
    exact hl
  | none =>
    cases hl2 : lastVal k (entries s) none with
    | none => rfl
    | some v =>
      rw [lastVal_eq_some_iff k v _ (entries_keys_nodup s h), mem_entries_iff s h, hl] at hl2
      cases hl2

theorem grow_size (s : HashMap V) (h : WF s) : (grow s).size = s.size :=
  size_eq_of_lk_eq _ _ (WF_grow s h) h (lk_grow s h)

/-! ### `set` on the states the public interface can reach -/

theorem WF_size_nonneg (s : HashMap V) (h : WF s) : 0 ≤ s.size := by
  rw [h.count]; exact Int.natCast_nonneg _

theorem put_size_le (s : HashMap V) (k : Key) (v : V) : (put s k v).size ≤ s.size + 1 := by
  rw [put_size]; split <;> omega

theorem put_size_ge (s : HashMap V) (k : Key) (v : V) : s.size ≤ (put s k v).size := by
  rw [put_size]; split <;> omega

theorem set_eq_put (fuel : Nat) (s : HashMap V) (h : WF s) (k : Key) (v : V)
    (hl : ¬ 4 * s.size > 3 * (s.maxSize : Int)) : set (fuel + 1) s k v = .ok (put s k v) := by
  rw [set]
  rw [if_neg hl]
  exact store_eq s h k v

theorem reinsert_eq (fuel : Nat) (l : List (Key × V)) (t : HashMap V) (h : WF t)
    (hb : 4 * (t.size + (l.length : Int)) ≤ 3 * (t.maxSize : Int) + 4) :
    reinsert (set (fuel + 1)) l t = .ok (putAll l t) := by
  induction l generalizing t with
  | nil => rfl
  | cons p l ih =>
    obtain ⟨k, v⟩ := p
    have hlen : (((k, v) :: l).length : Int) = (l.length : Int) + 1 := by simp
    rw [hlen] at hb
    have hnr : ¬ 4 * t.size > 3 * (t.maxSize : Int) := by omega
    simp only [reinsert, set_eq_put fuel t h k v hnr]
    have h1 := put_size_le t k v
    have h2 := put_maxSize t k v
    exact ih (put t k v) (WF_put t h k v) (by rw [h2]; omega)

theorem doubleBucketSize_eq (fuel : Nat) (s : HashMap V) (h : Inv s) :
    doubleBucketSize (fuel + 2) s = .ok (grow s) := by
  rw [doubleBucketSize]
  have hc := h.wf.count
  have hl := h.load
  have hpos := h.wf.pos
  exact reinsert_eq fuel (entries s) (blank (s.maxSize * 2))
    (WF_blank _ (by omega)) (by simp only [blank]; push_cast; omega)

theorem set_eq (fuel : Nat) (s : HashMap V) (h : Inv s) (k : Key) (v : V) :
    set (fuel + 3) s k v = .ok (setP s k v) := by
  rw [set]
  unfold setP
  by_cases hl : 4 * s.size > 3 * (s.maxSize : Int)
  · rw [if_pos hl, if_pos hl, doubleBucketSize_eq fuel s h]
    exact store_eq _ (WF_grow s h.wf) k v
  · rw [if_neg hl, if_neg hl]
    exact store_eq s h.wf k v

theorem WF_setP (s : HashMap V) (h : WF s) (k : Key) (v : V) : WF (setP s k v) := by
  unfold setP
  split
  · exact WF_put _ (WF_grow s h) k v
  · exact WF_put _ h k v

theorem lk_setP (s : HashMap V) (h : WF s) (k k2 : Key) (v : V) :
    lk (setP s k v) k2 = if k2 = k then some v else lk s k2 := by
  unfold setP
  split
  · rw [lk_put _ (WF_grow s h), lk_grow s h]
  · rw [lk_put _ h]

theorem setP_size (s : HashMap V) (h : WF s) (k : Key) (v : V) :
    (setP s k v).size = if (lk s k).isSome then s.size else s.size + 1 := by
  unfold setP
  split
  · rw [put_size, lk_grow s h, grow_size s h]
  · rw [put_size]

theorem setP_maxSize (s : HashMap V) (k : Key) (v : V) :
    (setP s k v).maxSize =
      if 4 * s.size > 3 * (s.maxSize : Int) then s.maxSize * 2 else s.maxSize := by
  unfold setP
  split
  · rw [put_maxSize, grow_maxSize]
  · rw [put_maxSize]

theorem Inv_setP (s : HashMap V) (h : Inv s) (k : Key) (v : V) : Inv (setP s k v) := by
  refine ⟨WF_setP s h.wf k v, ?_⟩
  have h1 := setP_size s h.wf k v
  have h2 := setP_maxSize s k v
  have h3 := h.load
  have h4 := h.wf.pos
  rw [h1, h2]
  split <;> split <;> push_cast <;> omega

theorem Inv_del (s : HashMap V) (h : Inv s) (k : Key) : Inv (del s k) := by
  refine ⟨WF_del s h.wf k, ?_⟩
  have h3 := h.load
  rw [del_size, del_maxSize]
  split <;> omega

theorem Inv_new : Inv (new : HashMap V) := ⟨WF_new, by simp only [new]; omega⟩

theorem Inv_clear (s : HashMap V) : Inv (clear s) := Inv_new

theorem Inv_stepP (s : HashMap V) (h : Inv s) (o : Op V) : Inv (stepP s o) := by
  cases o with
  | set k v => exact Inv_setP s h k v
  | remove k => exact Inv_del s h k
  | clear => exact Inv_clear s

theorem Inv_runP (ops : List (Op V)) (s : HashMap V) (h : Inv s) : Inv (runP ops s) := by
  induction ops generalizing s with
  | nil => exact h
  | cons o ops ih => exact ih _ (Inv_stepP s h o)

theorem step_eq (fuel : Nat) (s : HashMap V) (h : Inv s) (o : Op V) :
    step (fuel + 3) s o = .ok (stepP s o) := by
  cases o with
  | set k v => exact set_eq fuel s h k v
  | remove k => simp only [step, remove_eq s h.wf k, stepP]
  | clear => rfl

theorem run_eq (fuel : Nat) (ops : List (Op V)) (s : HashMap V) (h : Inv s) :
    run (fuel + 3) ops s = .ok (runP ops s) := by
  induction ops generalizing s with
  | nil => rfl
  | cons o ops ih =>
    simp only [run, step_eq fuel s h o]
    exact ih _ (Inv_stepP s h o)

theorem runP_append (ops1 ops2 : List (Op V)) (s : HashMap V) :
    runP (ops1 ++ ops2) s = runP ops2 (runP ops1 s) := by
  simp only [runP, List.foldl_append]

/-! ### More fuel never changes a result -/

theorem reinsert_mono (g1 g2 : HashMap V → Key → V → Except Fault (HashMap V))
    (hg : ∀ s k v s1, g1 s k v = .ok s1 → g2 s k v = .ok s1)
    (l : List (Key × V)) (t t1 : HashMap V) (h : reinsert g1 l t = .ok t1) :
    reinsert g2 l t = .ok t1 := by
  induction l generalizing t with
  | nil => exact h
  | cons p l ih =>
    obtain ⟨k, v⟩ := p
    simp only [reinsert] at h ⊢
    cases hg1 : g1 t k v with
    | error e => rw [hg1] at h; cases h
    | ok s1 =>
      rw [hg1] at h
      rw [hg t k v s1 hg1]
      exact ih s1 h

theorem fuel_succ (fuel : Nat) :
    (∀ (s : HashMap V) k v s1, set fuel s k v = .ok s1 → set (fuel + 1) s k v = .ok s1) ∧
    (∀ (s s1 : HashMap V), doubleBucketSize fuel s = .ok s1 →
      doubleBucketSize (fuel + 1) s = .ok s1) := by
  induction fuel with
  | zero =>
    constructor
    · intro s k v s1 h; rw [set] at h; cases h
    · intro s s1 h; rw [doubleBucketSize] at h; cases h
  | succ fuel ih =>
    constructor
    · intro s k v s1 h
      rw [set] at h ⊢
      split at h
      · rename_i hc
        rw [if_pos hc]
        cases hd : doubleBucketSize fuel s with
        | error e => rw [hd] at h; cases h
        | ok s2 =>
          rw [hd] at h
          rw [ih.2 s s2 hd]
          exact h
      · rename_i hc
        rw [if_neg hc]
        exact h
    · intro s s1 h
      rw [doubleBucketSize] at h ⊢
      exact reinsert_mono _ _ ih.1 _ _ _ h

theorem set_fuel_le (f1 f2 : Nat) (hle : f1 ≤ f2) (s : HashMap V) (k : Key) (v : V)
    (s1 : HashMap V) (h : set f1 s k v = .ok s1) : set f2 s k v = .ok s1 := by
  induction hle with
  | refl => exact h
  | step _ ih => exact (fuel_succ _).1 s k v s1 ih

theorem set_ok_eq (fuel : Nat) (s : HashMap V) (h : Inv s) (k : Key) (v : V) (s1 : HashMap V)
    (hs : set fuel s k v = .ok s1) : s1 = setP s k v := by
  have h1 := set_fuel_le fuel (fuel + 3) (by omega) s k v s1 hs
  rw [set_eq fuel s h k v] at h1
  cases h1
  rfl

theorem step_ok_eq (fuel : Nat) (s : HashMap V) (h : Inv s) (o : Op V) (s1 : HashMap V)
    (hs : step fuel s o = .ok s1) : s1 = stepP s o := by
  cases o with
  | set k v => exact set_ok_eq fuel s h k v s1 hs
  | remove k =>
    simp only [step, remove_eq s h.wf k] at hs
    cases hs
    rfl
  | clear =>
    simp only [step] at hs
    cases hs
    rfl

theorem run_ok_eq (fuel : Nat) (ops : List (Op V)) (s : HashMap V) (h : Inv s)
    (s1 : HashMap V) (hs : run fuel ops s = .ok s1) : s1 = runP ops s := by
  induction ops generalizing s with
  | nil => simp only [run] at hs; cases hs; rfl
  | cons o ops ih =>
    simp only [run] at hs
    cases ho : step fuel s o with
    | error e => rw [ho] at hs; cases hs
    | ok s2 =>
      rw [ho] at hs
      have := step_ok_eq fuel s h o s2 ho
      subst this
      exact ih _ (Inv_stepP s h o) hs

theorem Reachable.exists_ops {s : HashMap V} (h : Reachable s) :
    ∃ ops : List (Op V), s = runP ops new := by
  obtain ⟨fuel, ops, hr⟩ := h
  exact ⟨ops, run_ok_eq fuel ops new Inv_new s hr⟩

theorem Reachable.inv {s : HashMap V} (h : Reachable s) : Inv s := by
  obtain ⟨ops, rfl⟩ := h.exists_ops
  exact Inv_runP ops new Inv_new

theorem Reachable.new : Reachable (new : HashMap V) := ⟨0, [], rfl⟩

theorem Reachable.of_ops (ops : List (Op V)) : Reachable (runP ops (HashMap.new : HashMap V)) :=
  ⟨3, ops, run_eq 0 ops HashMap.new Inv_new⟩

theorem fuel_split (fuel : Nat) (hf : 3 ≤ fuel) : ∃ f, fuel = f + 3 := ⟨fuel - 3, by omega⟩

theorem lastVal_entries (s : HashMap V) (h : WF s) (k : Key) :
    lastVal k (entries s) none = lk s k := by
  cases hl : lk s k with
  | some v =>
    rw [lastVal_eq_some_iff k v _ (entries_keys_nodup s h), mem_entries_iff s h]
    exact hl
  | none =>
    cases hl2 : lastVal k (entries s) none with
    | none => rfl
    | some v =>
      rw [lastVal_eq_some_iff k v _ (entries_keys_nodup s h), mem_entries_iff s h, hl] at hl2
      cases hl2

theorem lk_runP_sets (l : List (Key × V)) (t : HashMap V) (h : Inv t) (k : Key) :
    lk (runP (l.map fun p => Op.set p.1 p.2) t) k = lastVal k l (lk t k) := by
  induction l generalizing t with
  | nil => rfl
  | cons p l ih =>
    simp only [List.map_cons, runP, List.foldl_cons, stepP, lastVal]
    have := ih _ (Inv_setP t h p.1 p.2)
    simp only [runP, lastVal] at this
    rw [this, lk_setP t h.wf]
    by_cases hk : k = p.1
    · simp [hk]
    · have hk2 : ¬ p.1 = k := fun h2 => hk h2.symm
      simp [hk, hk2]

theorem lk_stepP_avoids (s : HashMap V) (h : Inv s) (k : Key) (o : Op V) (ho : o.avoids k) :
    lk (stepP s o) k = lk s k := by
  cases o with
  | set k2 v =>
    have hk : ¬ k = k2 := fun h2 => ho h2.symm
    simp only [stepP, lk_setP s h.wf, hk, if_false]
  | remove k2 =>
    have hk : ¬ k = k2 := fun h2 => ho h2.symm
    simp only [stepP, lk_del s h.wf, hk, if_false]
  | clear => exact absurd ho id

theorem lk_runP_avoids (ops : List (Op V)) (s : HashMap V) (h : Inv s) (k : Key)
    (ho : ∀ o ∈ ops, Op.avoids k o) : lk (runP ops s) k = lk s k := by
  induction ops generalizing s with
  | nil => rfl
  | cons o ops ih =>
    simp only [runP, List.foldl_cons]
    have := ih (stepP s o) (Inv_stepP s h o) (fun o2 h2 => ho o2 (List.mem_cons_of_mem _ h2))
    simp only [runP] at this
    rw [this]
    exact lk_stepP_avoids s h k o (ho o (List.mem_cons_self _ _))

/-! ### Sequences of calls -/

theorem decomp_snoc (ops : List (Op V)) (o : Op V) (k : Key) (ho : ∀ w, o ≠ Op.set k w) :
    (∃ pre v post, ops ++ [o] = pre ++ Op.set k v :: post ∧ ∀ x ∈ post, x ≠ Op.remove k) ↔
    (o ≠ Op.remove k ∧
      ∃ pre v post, ops = pre ++ Op.set k v :: post ∧ ∀ x ∈ post, x ≠ Op.remove k) := by
  constructor
  · rintro ⟨pre, v, post, heq, hpost⟩
    rcases List.eq_nil_or_concat' post with rfl | ⟨post2, x, rfl⟩
    · have := (List.append_inj' heq rfl).2
      simp only [List.cons.injEq, and_true] at this
      exact absurd this (ho v)
    · have heq2 : ops ++ [o] = (pre ++ Op.set k v :: post2) ++ [x] := by
        rw [heq]; simp
      have h1 := List.append_inj' heq2 rfl
      have hx : o = x := by simpa using h1.2
      refine ⟨?_, pre, v, post2, h1.1, ?_⟩
      · rw [hx]; exact hpost x (by simp)
      · intro y hy; exact hpost y (by simp [hy])
  · rintro ⟨hne, pre, v, post, heq, hpost⟩
    refine ⟨pre, v, post ++ [o], by rw [heq]; simp, ?_⟩
    intro x hx
    rcases List.mem_append.1 hx with hx | hx
    · exact hpost x hx
    · rw [List.mem_singleton] at hx; rw [hx]; exact hne

theorem lk_isSome_iff (ops : List (Op V)) (hnc : ∀ o ∈ ops, o ≠ Op.clear) (k : Key) :
    (lk (runP ops new) k).isSome = true ↔
      ∃ pre v post, ops = pre ++ Op.set k v :: post ∧ ∀ x ∈ post, x ≠ Op.remove k := by
  induction ops using List.reverseRecOn with
  | nil =>
    simp only [runP, List.foldl_nil, lk_new, Option.isSome_none, Bool.false_eq_true, false_iff]
    rintro ⟨pre, v, post, heq, _⟩
    cases pre <;> cases heq
  | append_singleton ops o ih =>
    have ih2 := ih (fun x hx => hnc x (by simp [hx]))
    have hinv := Inv_runP ops new Inv_new
    have hstep : runP (ops ++ [o]) new = stepP (runP ops new) o := by
      simp only [runP, List.foldl_append, List.foldl_cons, List.foldl_nil]
    rw [hstep]
    cases o with
    | set k2 v2 =>
      by_cases hk : k = k2
      · subst hk
        simp only [stepP, lk_setP _ hinv.wf, if_true, Option.isSome_some, true_iff]
        exact ⟨ops, v2, [], rfl, by simp⟩
      · rw [decomp_snoc ops _ k (by intro w h; cases h; exact hk rfl)]
        simp only [stepP, lk_setP _ hinv.wf, hk, if_false, ih2]
        constructor
        · intro h; exact ⟨(by intro h2; cases h2), h⟩
        · intro h; exact h.2
    | remove k2 =>
      by_cases hk : k = k2
      · subst hk
        rw [decomp_snoc ops _ k (by intro w h; cases h)]
        simp only [stepP, lk_del _ hinv.wf, if_true, Option.isSome_none, Bool.false_eq_true,
          ne_eq, not_true_eq_false, false_and]
      · rw [decomp_snoc ops _ k (by intro w h; cases h)]
        simp only [stepP, lk_del _ hinv.wf, hk, if_false, ih2]
        constructor
        · intro h; exact ⟨(by intro h2; cases h2; exact hk rfl), h⟩
        · intro h; exact h.2
    | clear => exact absurd rfl (hnc Op.clear (by simp))

theorem entries_length_eq_sum (bs : List (List (Entry V))) :
    (bs.flatMap fun bucket => bucket.map fun e => (e.key, e.value)).length
      = (bs.map List.length).sum := by
  induction bs with
  | nil => rfl
  | cons b bs ih =>
    simp only [List.flatMap_cons, List.length_append, List.length_map, List.map_cons,
      List.sum_cons, ih]

/-- C1: after any sequence of calls in which the most recent call on the key `k` is
`set(k, v)` (no later `set(k, _)`, `remove(k)` or `clear`), the run returns and `get(k)`
returns `v`; later `set` calls on other keys may resize the table. -/
theorem get_after_last_set (fuel : Nat) (hf : 3 ≤ fuel) (pre post : List (Op V)) (k : Key)
    (v : V) (hpost : ∀ o ∈ post, o ≠ Op.clear ∧ o ≠ Op.remove k ∧ ∀ w, o ≠ Op.set k w) :
    ∃ s, run fuel (pre ++ Op.set k v :: post) new = .ok s ∧ get s k = .ok (some v) := by
  obtain ⟨f, rfl⟩ := fuel_split fuel hf
  refine ⟨_, run_eq f _ new Inv_new, ?_⟩
  have hinv1 : Inv (runP pre (new : HashMap V)) := Inv_runP pre new Inv_new
  have hav : ∀ o ∈ post, Op.avoids k o := by
    intro o ho
    obtain ⟨h1, h2, h3⟩ := hpost o ho
    cases o with
    | set k2 w => intro h; exact h3 w (by rw [h])
    | remove k2 => intro h; exact h2 (by rw [h])
    | clear => exact h1 rfl
  rw [get_eq _ (Inv_runP _ new Inv_new).wf, runP_append]
  have hcons : runP (Op.set k v :: post) (runP pre new) = runP post (setP (runP pre new) k v) := rfl
  rw [hcons, lk_runP_avoids post _ (Inv_setP _ hinv1 k v) k hav, lk_setP _ hinv1.wf, if_pos rfl]

/-- C1, on a run of fourteen distinct keys: the table is resized after `set([0], 7)`. -/
theorem get_after_last_set_witness :
    3 ≤ 3 ∧ ∃ s, run 3 ([] ++ Op.set [0] 7 :: otherSets) new = .ok s ∧
      get s [0] = .ok (some 7) :=
  ⟨by decide, get_after_last_set 3 (by decide) [] otherSets [0] 7 (by
    intro o ho
    obtain ⟨i, _, rfl⟩ := List.mem_map.1 ho
    simp)⟩

/-- C2: after any sequence of `set` and `remove` calls on a new table, `has(k)` returns
true exactly when the sequence contains a `set(k, _)` with no `remove(k)` after it. -/
theorem has_iff_set_not_removed (fuel : Nat) (hf : 3 ≤ fuel) (ops : List (Op V))
    (hnc : ∀ o ∈ ops, o ≠ Op.clear) (k : Key) :
    ∃ s b, run fuel ops new = .ok s ∧ has s k = .ok b ∧
      (b = true ↔
        ∃ pre v post, ops = pre ++ Op.set k v :: post ∧ ∀ o ∈ post, o ≠ Op.remove k) := by
  obtain ⟨f, rfl⟩ := fuel_split fuel hf
  exact ⟨_, _, run_eq f ops new Inv_new, has_eq _ (Inv_runP ops new Inv_new).wf k,
    lk_isSome_iff ops hnc k⟩

/-- C2, on `set([1], 5); remove([1]); set([2], 6)` and the key `[1]`. -/
theorem has_iff_set_not_removed_witness :
    3 ≤ 3 ∧ ∃ s b, run 3 [Op.set [1] 5, Op.remove [1], Op.set [2] 6] new = .ok s ∧
      has s [1] = .ok b ∧
      (b = true ↔ ∃ pre v post, [Op.set [1] 5, Op.remove [1], Op.set [2] 6]
          = pre ++ Op.set [1] v :: post ∧ ∀ o ∈ post, o ≠ Op.remove [1]) :=
  ⟨by decide, has_iff_set_not_removed 3 (by decide) [Op.set [1] 5, Op.remove [1], Op.set [2] 6]
    (by simp) [1]⟩

/-- C3: in every reachable state `keys()` has no key twice and `length()` is the number
of entries in all chains, hence the number of distinct keys present. -/
theorem length_eq_distinct_keys (s : HashMap V) (h : Reachable s) :
    (keys s).Nodup ∧ length s = (((s.buckets.map List.length).sum : Nat) : Int) ∧
      length s = (((keys s).toFinset.card : Nat) : Int) := by
  have hwf := h.inv.wf
  have hnd : (keys s).Nodup := by rw [keys_eq_map]; exact entries_keys_nodup s hwf
  refine ⟨hnd, ?_, ?_⟩
  · rw [← entries_length_eq_sum]; exact hwf.count
  · rw [List.toFinset_card_of_nodup hnd, keys_eq_map, List.length_map]; exact hwf.count

/-- C3, on the state after `set([1], 5); set([2], 6)`. -/
theorem length_eq_distinct_keys_witness :
    (keys twoKeys).Nodup ∧
      length twoKeys = (((twoKeys.buckets.map List.length).sum : Nat) : Int) ∧
      length twoKeys = (((keys twoKeys).toFinset.card : Nat) : Int) :=
  length_eq_distinct_keys twoKeys ⟨3, [Op.set [1] 5, Op.set [2] 6], rfl⟩

/-- C4: on a reachable state `remove(k)` returns what `has(k)` returned before; when it
returns true, `has(k)` is false afterwards and `length()` is one less; when it returns
false the state is unchanged. -/
theorem remove_returns_has (s : HashMap V) (h : Reachable s) (k : Key) :
    ∃ s1 b, remove s k = .ok (s1, b) ∧ has s k = .ok b ∧
      (b = true → has s1 k = .ok false ∧ length s1 = length s - 1) ∧
      (b = false → s1 = s) := by
  have hwf := h.inv.wf
  refine ⟨del s k, (lk s k).isSome, remove_eq s hwf k, has_eq s hwf k, ?_, ?_⟩
  · intro hb
    constructor
    · rw [has_eq _ (WF_del s hwf k), lk_del s hwf, if_pos rfl]; rfl
    · simp only [length, del_size, hb, if_true]
  · intro hb
    exact del_of_absent s k hb

/-- C4, on the state after `set([1], 5); set([2], 6)` and the key `[1]`. -/
theorem remove_returns_has_witness :
    ∃ s1 b, remove twoKeys [1] = .ok (s1, b) ∧ has twoKeys [1] = .ok b ∧
      (b = true → has s1 [1] = .ok false ∧ length s1 = length twoKeys - 1) ∧
      (b = false → s1 = twoKeys) :=
  remove_returns_has twoKeys ⟨3, [Op.set [1] 5, Op.set [2] 6], rfl⟩ [1]

/-! ### `remove` and `entries` -/

theorem set_erase_eq_map (s : HashMap V) (h : WF s) (k : Key) :
    s.buckets.set (hashN s.maxSize k) (chainErase k (chainAt s k))
      = s.buckets.map (chainErase k) := by
  have hlt : hashN s.maxSize k < s.buckets.length := by
    rw [h.len]; exact hashN_lt _ h.pos _
  apply List.ext_getElem?
  intro i
  rw [List.getElem?_set, List.getElem?_map]
  by_cases hi : hashN s.maxSize k = i
  · rw [if_pos hi, ← hi, if_pos hlt, bucket_at s h k]
    rfl
  · rw [if_neg hi]
    cases hb : s.buckets[i]? with
    | none => rfl
    | some ch =>
      show some ch = some (chainErase k ch)
      congr 1
      symm
      apply chainErase_of_not_mem
      intro hmem
      obtain ⟨e, he, hek⟩ := List.mem_map.1 hmem
      have := h.placed i ch hb e he
      rw [hek] at this
      exact hi this

theorem flatMap_erase_eq_filter (k : Key) (bs : List (List (Entry V)))
    (hn : ∀ ch ∈ bs, (chainKeys ch).Nodup) :
    ((bs.map (chainErase k)).flatMap fun bucket => bucket.map fun e => (e.key, e.value))
      = (bs.flatMap fun bucket => bucket.map fun e => (e.key, e.value)).filter
          fun p => decide (p.1 ≠ k) := by
  induction bs with
  | nil => rfl
  | cons b bs ih =>
    simp only [List.map_cons, List.flatMap_cons, List.filter_append]
    rw [ih (fun ch hch => hn ch (List.mem_cons_of_mem _ hch)),
      chainErase_eq_filter k b (hn b (List.mem_cons_self _ _)), List.filter_map]
    rfl

theorem entries_del (s : HashMap V) (h : WF s) (k : Key) :
    entries (del s k) = (entries s).filter fun p => decide (p.1 ≠ k) := by
  unfold del
  split
  · simp only [entries]
    rw [set_erase_eq_map s h k, flatMap_erase_eq_filter k _ h.nodup]
  · rename_i hnone
    symm
    rw [List.filter_eq_self]
    intro p hp
    obtain ⟨k2, v⟩ := p
    have hl := (mem_entries_iff s h k2 v).1 hp
    have : k2 ≠ k := by
      intro hk
      rw [hk] at hl
      rw [hl] at hnone
      exact hnone rfl
    simpa using this

theorem filter_key_eq (k : Key) (v : V) (l : List (Key × V)) (hn : (l.map Prod.fst).Nodup)
    (hm : (k, v) ∈ l) : (l.filter fun p => decide (p.1 = k)) = [(k, v)] := by
  induction l with
  | nil => simp at hm
  | cons p l ih =>
    simp only [List.map_cons, List.nodup_cons] at hn
    by_cases hp : p.1 = k
    · have hnot : k ∉ l.map Prod.fst := by rw [← hp]; exact hn.1
      have hpe : p = (k, v) := by
        rcases List.mem_cons.1 hm with h1 | h1
        · exact h1.symm
        · exact absurd (List.mem_map.2 ⟨_, h1, rfl⟩) hnot
      have hnil : (l.filter fun p => decide (p.1 = k)) = [] := by
        rw [List.filter_eq_nil_iff]
        intro q hq
        have : q.1 ≠ k := fun h2 => hnot (List.mem_map.2 ⟨q, hq, h2⟩)
        simpa using this
      rw [List.filter_cons_of_pos (by simpa using hp), hnil, hpe]
    · have hm2 : (k, v) ∈ l := by
        rcases List.mem_cons.1 hm with h1 | h1
        · rw [← h1] at hp; exact absurd rfl hp
        · exact h1
      rw [List.filter_cons_of_neg (by simpa using hp)]
      exact ih hn.2 hm2

theorem filter_key_length_le (k : Key) (l : List (Key × V)) (hn : (l.map Prod.fst).Nodup) :
    (l.filter fun p => decide (p.1 = k)).length ≤ 1 := by
  cases hf : l.filter fun p => decide (p.1 = k) with
  | nil => simp
  | cons p rest =>
    have hp : p ∈ l.filter fun p => decide (p.1 = k) := by rw [hf]; exact List.mem_cons_self _ _
    rw [List.mem_filter] at hp
    have hk : p.1 = k := by simpa using hp.2
    have hm : (k, p.2) ∈ l := by rw [← hk]; exact hp.1
    have := filter_key_eq k p.2 l hn hm
    rw [hf] at this
    rw [this]
    simp

/-- C5: on a reachable state `remove(k)` keeps the capacity, deletes the entry keyed `k`
(there is at most one) from `entries()` and keeps all the others in their order, so
`get` and `has` are unchanged on every other key, also on one in the same bucket; the
keys "a" and "q" share bucket 1 at capacity 16. -/
theorem remove_frame (s : HashMap V) (h : Reachable s) (k : Key) :
    ∃ s1 b, remove s k = .ok (s1, b) ∧ s1.maxSize = s.maxSize ∧
      entries s1 = (entries s).filter (fun p => decide (p.1 ≠ k)) ∧
      ((entries s).filter (fun p => decide (p.1 = k))).length ≤ 1 ∧
      (∀ k2, k2 ≠ k → get s1 k2 = get s k2 ∧ has s1 k2 = has s k2) ∧
      hash 16 [97] = some 1 ∧ hash 16 [113] = some 1 := by
  have hwf := h.inv.wf
  refine ⟨del s k, (lk s k).isSome, remove_eq s hwf k, del_maxSize s k, entries_del s hwf k,
    ?_, ?_, rfl, rfl⟩
  · exact filter_key_length_le k _ (entries_keys_nodup s hwf)
  · intro k2 hk2
    rw [get_eq _ (WF_del s hwf k), has_eq _ (WF_del s hwf k), get_eq s hwf, has_eq s hwf,
      lk_del s hwf, if_neg hk2]
    exact ⟨rfl, rfl⟩

/-- C5, on the state after `set([1], 5); set([2], 6)` and the key `[1]`. -/
theorem remove_frame_witness :
    ∃ s1 b, remove twoKeys [1] = .ok (s1, b) ∧ s1.maxSize = twoKeys.maxSize ∧
      entries s1 = (entries twoKeys).filter (fun p => decide (p.1 ≠ [1])) ∧
      ((entries twoKeys).filter (fun p => decide (p.1 = [1]))).length ≤ 1 ∧
      (∀ k2, k2 ≠ [1] → get s1 k2 = get twoKeys k2 ∧ has s1 k2 = has twoKeys k2) ∧
      hash 16 [97] = some 1 ∧ hash 16 [113] = some 1 :=
  remove_frame twoKeys ⟨3, [Op.set [1] 5, Op.set [2] 6], rfl⟩ [1]

/-- C6: on a reachable state `get(k)` returns `null` exactly when `has(k)` returns false,
and when `has(k)` returns true it returns the value of the one entry keyed `k`. -/
theorem get_null_iff_not_has (s : HashMap V) (h : Reachable s) (k : Key) :
    ∃ r b, get s k = .ok r ∧ has s k = .ok b ∧ (r = none ↔ b = false) ∧
      (b = true → ∃ v, r = some v ∧
        (entries s).filter (fun p => decide (p.1 = k)) = [(k, v)]) := by
  have hwf := h.inv.wf
  refine ⟨lk s k, (lk s k).isSome, get_eq s hwf k, has_eq s hwf k, ?_, ?_⟩
  · cases lk s k <;> simp
  · intro hb
    cases hl : lk s k with
    | none => rw [hl] at hb; cases hb
    | some v =>
      exact ⟨v, rfl, filter_key_eq k v _ (entries_keys_nodup s hwf) ((mem_entries_iff s hwf k v).2 hl)⟩

/-- C6, on the state after `set([1], 5); set([2], 6)` and the key `[2]`. -/
theorem get_null_iff_not_has_witness :
    ∃ r b, get twoKeys [2] = .ok r ∧ has twoKeys [2] = .ok b ∧ (r = none ↔ b = false) ∧
      (b = true → ∃ v, r = some v ∧
        (entries twoKeys).filter (fun p => decide (p.1 = [2])) = [([2], v)]) :=
  get_null_iff_not_has twoKeys ⟨3, [Op.set [1] 5, Op.set [2] 6], rfl⟩ [2]

/-- C7: on a reachable state, `set(k, v)` twice gives the same `length()` and the same
`get` on every key as `set(k, v)` once, whether or not the second call resizes. -/
theorem set_twice (s : HashMap V) (h : Reachable s) (fuel : Nat) (hf : 3 ≤ fuel) (k : Key)
    (v : V) :
    ∃ s1 s2, set fuel s k v = .ok s1 ∧ set fuel s1 k v = .ok s2 ∧
      length s2 = length s1 ∧ ∀ k2, get s2 k2 = get s1 k2 := by
  obtain ⟨f, rfl⟩ := fuel_split fuel hf
  have hinv := h.inv
  have hinv1 := Inv_setP s hinv k v
  have hinv2 := Inv_setP _ hinv1 k v
  have hk : lk (setP s k v) k = some v := by rw [lk_setP s hinv.wf, if_pos rfl]
  refine ⟨_, _, set_eq f s hinv k v, set_eq f _ hinv1 k v, ?_, ?_⟩
  · simp only [length, setP_size _ hinv1.wf, hk, Option.isSome_some, if_true]
  · intro k2
    rw [get_eq _ hinv2.wf, get_eq _ hinv1.wf, lk_setP _ hinv1.wf]
    by_cases hk2 : k2 = k
    · rw [if_pos hk2, hk2, hk]
    · rw [if_neg hk2]

/-- C7, on the state after `set([1], 5); set([2], 6)`, setting `[3]` to `7`. -/
theorem set_twice_witness :
    3 ≤ 3 ∧ ∃ s1 s2, set 3 twoKeys [3] 7 = .ok s1 ∧ set 3 s1 [3] 7 = .ok s2 ∧
      length s2 = length s1 ∧ ∀ k2, get s2 k2 = get s1 k2 :=
  ⟨by decide, set_twice twoKeys ⟨3, [Op.set [1] 5, Op.set [2] 6], rfl⟩ 3 (by decide) [3] 7⟩

/-- C8: on a reachable state `m`, `clear()` followed by `set(key, value)` for every pair of
`entries()` in order gives a table with the same `has`, `get` and `length()` as `m`. -/
theorem entries_roundtrip (m : HashMap V) (h : Reachable m) (fuel : Nat) (hf : 3 ≤ fuel) :
    ∃ m1, run fuel (Op.clear :: (entries m).map fun p => Op.set p.1 p.2) m = .ok m1 ∧
      (∀ k, has m1 k = has m k ∧ get m1 k = get m k) ∧ length m1 = length m := by
  obtain ⟨f, rfl⟩ := fuel_split fuel hf
  have hinv := h.inv
  have hinv1 := Inv_runP (Op.clear :: (entries m).map fun p => Op.set p.1 p.2) m hinv
  have hlk : ∀ k, lk (runP (Op.clear :: (entries m).map fun p => Op.set p.1 p.2) m) k
      = lk m k := by
    intro k
    have hc : runP (Op.clear :: (entries m).map fun p => Op.set p.1 p.2) m
        = runP ((entries m).map fun p => Op.set p.1 p.2) new := rfl
    rw [hc, lk_runP_sets _ _ Inv_new, lk_new, lastVal_entries m hinv.wf]
  refine ⟨_, run_eq f _ m hinv, ?_, size_eq_of_lk_eq _ _ hinv1.wf hinv.wf hlk⟩
  intro k
  rw [has_eq _ hinv1.wf, get_eq _ hinv1.wf, has_eq m hinv.wf, get_eq m hinv.wf, hlk]
  exact ⟨rfl, rfl⟩

/-- C8, on the state after `set([1], 5); set([2], 6)`. -/
theorem entries_roundtrip_witness :
    3 ≤ 3 ∧ ∃ m1, run 3 (Op.clear :: (entries twoKeys).map fun p => Op.set p.1 p.2) twoKeys
        = .ok m1 ∧
      (∀ k, has m1 k = has twoKeys k ∧ get m1 k = get twoKeys k) ∧
      length m1 = length twoKeys :=
  ⟨by decide, entries_roundtrip twoKeys ⟨3, [Op.set [1] 5, Op.set [2] 6], rfl⟩ 3 (by decide)⟩

/-! ### Inserting distinct new keys -/

theorem size_runP_fresh (l : List (Key × V)) (t : HashMap V) (h : Inv t)
    (hn : (l.map Prod.fst).Nodup) (hf : ∀ p ∈ l, lk t p.1 = none) :
    (runP (l.map fun p => Op.set p.1 p.2) t).size = t.size + (l.length : Int) := by
  induction l generalizing t with
  | nil => simp [runP]
  | cons p l ih =>
    simp only [List.map_cons, List.nodup_cons] at hn
    have hstep : runP (((p :: l)).map fun p => Op.set p.1 p.2) t
        = runP (l.map fun p => Op.set p.1 p.2) (setP t p.1 p.2) := rfl
    have hfresh : ∀ q ∈ l, lk (setP t p.1 p.2) q.1 = none := by
      intro q hq
      have hne : q.1 ≠ p.1 := fun h2 => hn.1 (List.mem_map.2 ⟨q, hq, h2⟩)
      rw [lk_setP t h.wf, if_neg hne]
      exact hf q (List.mem_cons_of_mem _ hq)
    rw [hstep, ih _ (Inv_setP t h p.1 p.2) hn.2 hfresh, setP_size t h.wf,
      hf p (List.mem_cons_self _ _)]
    simp only [Option.isSome_none, Bool.false_eq_true, if_false, List.length_cons]
    push_cast
    omega

theorem maxSize_runP_fresh (l : List (Key × V)) (t : HashMap V) (h : Inv t)
    (hn : (l.map Prod.fst).Nodup) (hf : ∀ p ∈ l, lk t p.1 = none)
    (hb : 4 * (t.size + (l.length : Int)) ≤ 3 * (t.maxSize : Int) + 4) :
    (runP (l.map fun p => Op.set p.1 p.2) t).maxSize = t.maxSize := by
  induction l generalizing t with
  | nil => rfl
  | cons p l ih =>
    simp only [List.map_cons, List.nodup_cons] at hn
    have hstep : runP (((p :: l)).map fun p => Op.set p.1 p.2) t
        = runP (l.map fun p => Op.set p.1 p.2) (setP t p.1 p.2) := rfl
    have hfresh : ∀ q ∈ l, lk (setP t p.1 p.2) q.1 = none := by
      intro q hq
      have hne : q.1 ≠ p.1 := fun h2 => hn.1 (List.mem_map.2 ⟨q, hq, h2⟩)
      rw [lk_setP t h.wf, if_neg hne]
      exact hf q (List.mem_cons_of_mem _ hq)
    have hlen : (((p :: l).length : Nat) : Int) = (l.length : Int) + 1 := by simp
    rw [hlen] at hb
    have hnr : ¬ 4 * t.size > 3 * (t.maxSize : Int) := by omega
    have hm : (setP t p.1 p.2).maxSize = t.maxSize := by rw [setP_maxSize, if_neg hnr]
    have hs : (setP t p.1 p.2).size = t.size + 1 := by
      rw [setP_size t h.wf, hf p (List.mem_cons_self _ _)]; rfl
    rw [hstep, ih _ (Inv_setP t h p.1 p.2) hn.2 hfresh (by rw [hm, hs]; omega), hm]

theorem new_after_sets (l : List (Key × V)) (hn : (l.map Prod.fst).Nodup) :
    (runP (l.map fun p => Op.set p.1 p.2) (new : HashMap V)).size = (l.length : Int) ∧
    (l.length ≤ 13 → (runP (l.map fun p => Op.set p.1 p.2) (new : HashMap V)).maxSize = 16) := by
  have hfresh : ∀ p ∈ l, lk (new : HashMap V) p.1 = none := fun p _ => lk_new p.1
  constructor
  · rw [size_runP_fresh l new Inv_new hn hfresh]
    simp [new]
  · intro hlen
    rw [maxSize_runP_fresh l new Inv_new hn hfresh (by simp only [new]; omega)]
    rfl

/-- C9 (as amended): `set` on 13 pairwise distinct keys leaves the capacity of a new table
at 16; the check in `set` precedes the insertion, so the capacity is 32 only after a `set`
on a 14th distinct key. -/
theorem capacity_after_thirteen (fuel : Nat) (hf : 3 ≤ fuel) (kvs : List (Key × V))
    (hn : (kvs.map Prod.fst).Nodup) :
    (kvs.length = 13 →
      ∃ s, run fuel (kvs.map fun p => Op.set p.1 p.2) new = .ok s ∧ s.maxSize = 16) ∧
    (kvs.length = 14 →
      ∃ s, run fuel (kvs.map fun p => Op.set p.1 p.2) new = .ok s ∧ s.maxSize = 32) := by
  obtain ⟨f, rfl⟩ := fuel_split fuel hf
  constructor
  · intro hlen
    exact ⟨_, run_eq f _ new Inv_new, (new_after_sets kvs hn).2 (by omega)⟩
  · intro hlen
    refine ⟨_, run_eq f _ new Inv_new, ?_⟩
    rcases List.eq_nil_or_concat' kvs with hnil | ⟨l, p, rfl⟩
    · rw [hnil] at hlen; simp at hlen
    · have hl : l.length = 13 := by simpa using hlen
      have hn2 : (l.map Prod.fst).Nodup := by
        rw [List.map_append, List.nodup_append] at hn
        exact hn.1
      obtain ⟨h1, h2⟩ := new_after_sets l hn2
      rw [List.map_append, runP_append]
      show (setP _ p.1 p.2).maxSize = 32
      rw [setP_maxSize, h1, h2 (by omega), hl]
      rfl

/-- C9 (as amended), on the keys `[1]`, ..., `[13]`. -/
theorem capacity_after_thirteen_witness :
    3 ≤ 3 ∧ (thirteenPairs.map Prod.fst).Nodup ∧
    (thirteenPairs.length = 13 →
      ∃ s, run 3 (thirteenPairs.map fun p => Op.set p.1 p.2) new = .ok s ∧ s.maxSize = 16) ∧
    (thirteenPairs.length = 14 →
      ∃ s, run 3 (thirteenPairs.map fun p => Op.set p.1 p.2) new = .ok s ∧ s.maxSize = 32) :=
  ⟨by decide, by decide, capacity_after_thirteen 3 (by decide) thirteenPairs (by decide)⟩

/-- C9 as stated fails: after `set` on the 13 distinct keys `[1]`, ..., `[13]` the capacity
of a new table is 16, not 32. -/
theorem capacity_after_thirteen_not_32 :
    (thirteenPairs.map Prod.fst).Nodup ∧ thirteenPairs.length = 13 ∧
    ∃ s, run 3 (thirteenPairs.map fun p => Op.set p.1 p.2) new = .ok s ∧ s.maxSize = 16 ∧
      s.maxSize ≠ 32 := by
  refine ⟨by decide, by decide, _, run_eq 0 _ new Inv_new, ?_⟩
  have h := (new_after_sets thirteenPairs (by decide)).2 (by decide)
  rw [h]
  exact ⟨rfl, by decide⟩

/-- C10 (as amended): on a reachable state without the key `k`, after `set(k, v)` the
count without the new entry is within the threshold, `4 * (size - 1) <= 3 * maxSize`;
the count itself may exceed `0.75 * maxSize` by that one entry. -/
theorem load_after_insert (s : HashMap V) (h : Reachable s) (fuel : Nat) (hf : 3 ≤ fuel)
    (k : Key) (v : V) (hk : has s k = .ok false) :
    ∃ s1, set fuel s k v = .ok s1 ∧ s1.size = s.size + 1 ∧
      4 * (s1.size - 1) ≤ 3 * (s1.maxSize : Int) := by
  obtain ⟨f, rfl⟩ := fuel_split fuel hf
  have hinv := h.inv
  have hnone : (lk s k).isSome = false := by
    rw [has_eq s hinv.wf] at hk
    exact Except.ok.inj hk
  have hsz : (setP s k v).size = s.size + 1 := by
    rw [setP_size s hinv.wf, hnone]; rfl
  refine ⟨_, set_eq f s hinv k v, hsz, ?_⟩
  have h3 := hinv.load
  have h4 := hinv.wf.pos
  rw [hsz, setP_maxSize]
  split <;> push_cast <;> omega

/-- C10 (as amended), on the state after `set([1], 5); set([2], 6)` and the new key `[3]`. -/
theorem load_after_insert_witness :
    3 ≤ 3 ∧ has twoKeys [3] = .ok false ∧
    ∃ s1, set 3 twoKeys [3] 7 = .ok s1 ∧ s1.size = twoKeys.size + 1 ∧
      4 * (s1.size - 1) ≤ 3 * (s1.maxSize : Int) :=
  ⟨by decide, rfl,
    load_after_insert twoKeys ⟨3, [Op.set [1] 5, Op.set [2] 6], rfl⟩ 3 (by decide) [3] 7 rfl⟩

/-- C10 as stated fails: on the table holding the 12 keys `[1]`, ..., `[12]`, `set` on the
absent key `[0]` returns with `size = 13` and `maxSize = 16`, and `4 * 13 > 3 * 16`. -/
theorem load_exceeded_after_insert :
    ∃ s s1, run 3 (twelvePairs.map fun p => Op.set p.1 p.2) new = .ok s ∧
      has s [0] = .ok false ∧ set 3 s [0] 0 = .ok s1 ∧
      s1.size = 13 ∧ s1.maxSize = 16 ∧ ¬ 4 * s1.size ≤ 3 * (s1.maxSize : Int) := by
  have hinv : Inv (runP (twelvePairs.map fun p => Op.set p.1 p.2) (new : HashMap Nat)) :=
    Inv_runP _ new Inv_new
  obtain ⟨h1, h2⟩ := new_after_sets twelvePairs (by decide)
  have h2 := h2 (by decide)
  have hl : lk (runP (twelvePairs.map fun p => Op.set p.1 p.2) (new : HashMap Nat)) [0]
      = none := by
    rw [lk_runP_sets _ _ Inv_new, lk_new]
    decide
  have hlen : twelvePairs.length = 12 := by decide
  have hsz : (setP (runP (twelvePairs.map fun p => Op.set p.1 p.2) (new : HashMap Nat))
      [0] 0).size = 13 := by
    rw [setP_size _ hinv.wf, hl, h1, hlen]; rfl
  have hms : (setP (runP (twelvePairs.map fun p => Op.set p.1 p.2) (new : HashMap Nat))
      [0] 0).maxSize = 16 := by
    rw [setP_maxSize, h1, h2, hlen]; rfl
  refine ⟨_, _, run_eq 0 _ new Inv_new, ?_, set_eq 0 _ hinv [0] 0, hsz, hms, ?_⟩
  · rw [has_eq _ hinv.wf, hl]; rfl
  · rw [hsz, hms]; decide

end HashMap

/-! ## The claims on `clear`, `hash`, `set` and the enumerations -/

namespace HashMap

variable {V : Type}

theorem mem_keys_iff (s : HashMap V) (h : WF s) (k : Key) :
    k ∈ keys s ↔ (lk s k).isSome = true := by
  rw [keys_eq_map, List.mem_map]
  constructor
  · rintro ⟨p, hp, rfl⟩
    rw [(mem_entries_iff s h p.1 p.2).1 hp]
    rfl
  · intro hs
    cases hl : lk s k with
    | none => rw [hl] at hs; cases hs
    | some v => exact ⟨(k, v), (mem_entries_iff s h k v).2 hl, rfl⟩

theorem Placed_of_WF (s : HashMap V) (h : WF s) : Placed s := by
  intro i ch hi e he
  rw [hash_eq_hashN _ h.pos, h.placed i ch hi e he]

theorem maxSize_runP_ge (ops : List (Op V)) :
    16 ≤ (runP ops (HashMap.new : HashMap V)).maxSize := by
  induction ops using List.reverseRecOn with
  | nil => exact Nat.le_refl 16
  | append_singleton ops o ih =>
    have hstep : runP (ops ++ [o]) (HashMap.new : HashMap V)
        = stepP (runP ops HashMap.new) o := by
      simp only [runP, List.foldl_append, List.foldl_cons, List.foldl_nil]
    rw [hstep]
    cases o with
    | set k v =>
      simp only [stepP, setP_maxSize]
      split <;> omega
    | remove k => simp only [stepP, del_maxSize]; exact ih
    | clear => exact Nat.le_refl 16

theorem Reachable.maxSize_ge {s : HashMap V} (h : Reachable s) : 16 ≤ s.maxSize := by
  obtain ⟨ops, rfl⟩ := h.exists_ops
  exact maxSize_runP_ge ops

/-- C11: on every state `clear()` produces the state of a newly constructed table:
capacity 16, count 0 and 16 empty chains; afterwards `length()` is 0, `keys()` is empty
and `has(k)` is false for every key. -/
theorem clear_eq_new (s : HashMap V) :
    clear s = new ∧ (clear s).maxSize = 16 ∧ (clear s).size = 0 ∧
      (clear s).buckets = List.replicate 16 [] ∧ length (clear s) = 0 ∧
      keys (clear s) = [] ∧ ∀ k, has (clear s) k = .ok false := by
  refine ⟨rfl, rfl, rfl, rfl, rfl, ?_, ?_⟩
  · rw [keys_eq_map]
    show (entries (blank 16 : HashMap V)).map Prod.fst = []
    rw [entries_blank]
    rfl
  · intro k
    show has (new : HashMap V) k = .ok false
    rw [has_eq _ WF_new, lk_new]
    rfl

/-- C12: on a reachable state `hash(key)` is a number `h` with `h < maxSize`, `maxSize`
is the length of the bucket table, so `buckets[hash(key)]` exists, also in the table that
`doubleBucketSize` builds for a resizing `set`; the empty key hashes to 0. -/
theorem hash_in_bounds (s : HashMap V) (h : Reachable s) (key : Key) :
    (∃ hashKey ch, hash s.maxSize key = some hashKey ∧ hashKey < s.maxSize ∧
      s.buckets.length = s.maxSize ∧ s.buckets[hashKey]? = some ch ∧
      bucketOf s key = .ok (hashKey, ch)) ∧
    (∃ s1 hashKey ch, doubleBucketSize 2 s = .ok s1 ∧ hash s1.maxSize key = some hashKey ∧
      hashKey < s1.maxSize ∧ s1.buckets.length = s1.maxSize ∧
      bucketOf s1 key = .ok (hashKey, ch)) ∧
    hash s.maxSize [] = some 0 := by
  have hwf := h.inv.wf
  have hwf2 := WF_grow s hwf
  refine ⟨⟨_, _, hash_eq_hashN _ hwf.pos key, hashN_lt _ hwf.pos key, hwf.len,
    bucket_at s hwf key, bucketOf_eq s hwf key⟩, ⟨_, _, _, doubleBucketSize_eq 0 s h.inv,
    hash_eq_hashN _ hwf2.pos key, hashN_lt _ hwf2.pos key, hwf2.len,
    bucketOf_eq _ hwf2 key⟩, rfl⟩

/-- C12, on the state after `set([1], 5); set([2], 6)` and the key "aq". -/
theorem hash_in_bounds_witness :
    (∃ hashKey ch, hash twoKeys.maxSize [97, 113] = some hashKey ∧ hashKey < twoKeys.maxSize ∧
      twoKeys.buckets.length = twoKeys.maxSize ∧ twoKeys.buckets[hashKey]? = some ch ∧
      bucketOf twoKeys [97, 113] = .ok (hashKey, ch)) ∧
    (∃ s1 hashKey ch, doubleBucketSize 2 twoKeys = .ok s1 ∧
      hash s1.maxSize [97, 113] = some hashKey ∧
      hashKey < s1.maxSize ∧ s1.buckets.length = s1.maxSize ∧
      bucketOf s1 [97, 113] = .ok (hashKey, ch)) ∧
    hash twoKeys.maxSize [] = some 0 :=
  hash_in_bounds twoKeys ⟨3, [Op.set [1] 5, Op.set [2] 6], rfl⟩ [97, 113]

/-- C13: on a reachable state, `set(k, v)` on a key that `has` reports present leaves
`length()` and the set of keys unchanged; on an absent key it increases `length()` by
exactly 1; both with and without a resize. -/
theorem set_length (s : HashMap V) (h : Reachable s) (fuel : Nat) (hf : 3 ≤ fuel) (k : Key)
    (v : V) :
    ∃ s1 b, set fuel s k v = .ok s1 ∧ has s k = .ok b ∧
      (b = true → length s1 = length s ∧ ∀ k2, k2 ∈ keys s1 ↔ k2 ∈ keys s) ∧
      (b = false → length s1 = length s + 1) := by
  obtain ⟨f, rfl⟩ := fuel_split fuel hf
  have hinv := h.inv
  have hwf1 := WF_setP s hinv.wf k v
  refine ⟨_, _, set_eq f s hinv k v, has_eq s hinv.wf k, ?_, ?_⟩
  · intro hb
    refine ⟨by simp only [length, setP_size s hinv.wf, hb, if_true], ?_⟩
    intro k2
    rw [mem_keys_iff _ hwf1, mem_keys_iff s hinv.wf, lk_setP s hinv.wf]
    by_cases hk : k2 = k
    · rw [if_pos hk, hk, hb]; simp
    · rw [if_neg hk]
  · intro hb
    simp only [length, setP_size s hinv.wf, hb, Bool.false_eq_true, if_false]

/-- C13, on the state after `set([1], 5); set([2], 6)`, setting `[2]` to `9`. -/
theorem set_length_witness :
    3 ≤ 3 ∧ ∃ s1 b, set 3 twoKeys [2] 9 = .ok s1 ∧ has twoKeys [2] = .ok b ∧
      (b = true → length s1 = length twoKeys ∧ ∀ k2, k2 ∈ keys s1 ↔ k2 ∈ keys twoKeys) ∧
      (b = false → length s1 = length twoKeys + 1) :=
  ⟨by decide, set_length twoKeys ⟨3, [Op.set [1] 5, Op.set [2] 6], rfl⟩ 3 (by decide) [2] 9⟩

/-- C14: on every state `entries()` is the concatenation of the chains in bucket order,
each in chain order; `keys()` is the list of its first components and `values()` the
list of its second components, so the three have the same order and length. -/
theorem enumerations (s : HashMap V) :
    entries s = s.buckets.flatten.map (fun e => (e.key, e.value)) ∧
      keys s = (entries s).map Prod.fst ∧ values s = (entries s).map Prod.snd ∧
      (keys s).length = (entries s).length ∧ (values s).length = (entries s).length := by
  refine ⟨?_, keys_eq_map s, values_eq_map s, ?_, ?_⟩
  · unfold entries
    induction s.buckets with
    | nil => rfl
    | cons b bs ih => simp only [List.flatMap_cons, List.flatten_cons, List.map_append, ih]
  · rw [keys_eq_map, List.length_map]
  · rw [values_eq_map, List.length_map]

/-- C15: in every reachable state each entry of the chain at index `i` has
`hash(entry.key) = i` against the current capacity, and the state after `set` (resizing
or not), after `remove` and after `clear` has the same property. -/
theorem placed_reachable (s : HashMap V) (h : Reachable s) (fuel : Nat) (hf : 3 ≤ fuel)
    (k : Key) (v : V) :
    Placed s ∧ (∃ s1, set fuel s k v = .ok s1 ∧ Placed s1) ∧
      (∃ s1 b, remove s k = .ok (s1, b) ∧ Placed s1) ∧ Placed (clear s) := by
  obtain ⟨f, rfl⟩ := fuel_split fuel hf
  have hinv := h.inv
  exact ⟨Placed_of_WF s hinv.wf,
    ⟨_, set_eq f s hinv k v, Placed_of_WF _ (WF_setP s hinv.wf k v)⟩,
    ⟨_, _, remove_eq s hinv.wf k, Placed_of_WF _ (WF_del s hinv.wf k)⟩,
    Placed_of_WF _ WF_new⟩

/-- C15, on the state after `set([1], 5); set([2], 6)`, with `set([3], 7)` and
`remove([3])`. -/
theorem placed_reachable_witness :
    3 ≤ 3 ∧ Placed twoKeys ∧ (∃ s1, set 3 twoKeys [3] 7 = .ok s1 ∧ Placed s1) ∧
      (∃ s1 b, remove twoKeys [3] = .ok (s1, b) ∧ Placed s1) ∧ Placed (clear twoKeys) :=
  ⟨by decide,
    placed_reachable twoKeys ⟨3, [Op.set [1] 5, Op.set [2] 6], rfl⟩ 3 (by decide) [3] 7⟩

end HashMap

/-! ## The claims on resizing and on the hash function -/

namespace HashMap

variable {V : Type}

theorem putAll_size_le (l : List (Key × V)) (t : HashMap V) :
    (putAll l t).size ≤ t.size + (l.length : Int) := by
  induction l generalizing t with
  | nil => simp [putAll]
  | cons p l ih =>
    have h1 := ih (put t p.1 p.2)
    have h2 := put_size_le t p.1 p.2
    have hlen : (((p :: l).length : Nat) : Int) = (l.length : Int) + 1 := by simp
    rw [hlen]
    show (putAll l (put t p.1 p.2)).size ≤ _
    omega

theorem digest_snoc (key : Key) (x : Nat) : digest (key ++ [x]) = 31 * digest key + x := by
  unfold digest
  have hlen : (key ++ [x]).length = key.length + 1 := by simp
  rw [hlen, List.range_succ, List.map_append, List.sum_append]
  have hlast : ([key.length].map fun i =>
      (key ++ [x]).getD i 0 * 31 ^ (key.length + 1 - 1 - i)).sum = x := by
    simp [List.getD_append_right]
  have hfirst : ((List.range key.length).map fun i =>
      (key ++ [x]).getD i 0 * 31 ^ (key.length + 1 - 1 - i))
      = (List.range key.length).map fun i => 31 * (key.getD i 0 * 31 ^ (key.length - 1 - i)) := by
    apply List.map_congr_left
    intro i hi
    have hi2 : i < key.length := List.mem_range.1 hi
    rw [List.getD_append _ _ _ _ hi2]
    have he : key.length + 1 - 1 - i = (key.length - 1 - i) + 1 := by omega
    rw [he, pow_succ]
    ring
  rw [hlast, hfirst, List.sum_map_mul_left]

theorem hashN_snoc (m : Nat) (key : Key) (x : Nat) :
    hashN m (key ++ [x]) = (31 * hashN m key + x) % m := by
  simp only [hashN, List.foldl_append, List.foldl_cons, List.foldl_nil]

theorem hashN_eq_digest_mod (m : Nat) (key : Key) : hashN m key = digest key % m := by
  induction key using List.reverseRecOn with
  | nil => simp [hashN, digest]
  | append_singleton key x ih =>
    rw [hashN_snoc, digest_snoc, ih]
    simp [Nat.add_mod, Nat.mul_mod]

theorem hashN_double (c : Nat) (key : Key) : hashN (2 * c) key % c = hashN c key := by
  rw [hashN_eq_digest_mod, hashN_eq_digest_mod, Nat.mod_mod_of_dvd _ (Dvd.intro_left 2 rfl)]

theorem thirteenKeys_facts :
    thirteenKeys.size = 13 ∧ thirteenKeys.maxSize = 16 := by
  obtain ⟨h1, h2⟩ := new_after_sets thirteenPairs (by decide)
  exact ⟨h1, h2 (by decide)⟩

/-- C16: on a reachable state with capacity `c` and count `n`, `set` returns with capacity
`2 * c` when `n / c > 0.75` held at the call and with capacity `c` otherwise; and when
`doubleBucketSize` reinserts an entry `p`, after the entries `pre` before it, the load test
of the nested `set` is false, so there is no nested resize (`doubleBucketSize` returns with
fuel 2, which allows no nested call of itself). -/
theorem set_capacity (s : HashMap V) (h : Reachable s) (fuel : Nat) (hf : 3 ≤ fuel) (k : Key)
    (v : V) :
    (∃ s1, set fuel s k v = .ok s1 ∧
      (4 * s.size > 3 * (s.maxSize : Int) → s1.maxSize = 2 * s.maxSize) ∧
      (¬ 4 * s.size > 3 * (s.maxSize : Int) → s1.maxSize = s.maxSize)) ∧
    (∃ s2, doubleBucketSize 2 s = .ok s2 ∧ s2.maxSize = 2 * s.maxSize) ∧
    ∀ pre p post, entries s = pre ++ p :: post →
      ∃ t, reinsert (set (fuel - 2)) pre (blank (s.maxSize * 2)) = .ok t ∧
        ¬ 4 * t.size > 3 * (t.maxSize : Int) := by
  obtain ⟨f, rfl⟩ := fuel_split fuel hf
  have hinv := h.inv
  have hpos := hinv.wf.pos
  have hcount := hinv.wf.count
  have hload := hinv.load
  refine ⟨⟨_, set_eq f s hinv k v, ?_, ?_⟩,
    ⟨_, doubleBucketSize_eq 0 s hinv, by rw [grow_maxSize]; omega⟩, ?_⟩
  · intro hc; rw [setP_maxSize, if_pos hc]; omega
  · intro hc; rw [setP_maxSize, if_neg hc]
  · intro pre p post he
    have hlen : ((entries s).length : Int) = (pre.length : Int) + (post.length : Int) + 1 := by
      rw [he]; simp; omega
    have hpl := Int.natCast_nonneg post.length
    have hf2 : f + 3 - 2 = f + 1 := by omega
    rw [hf2]
    refine ⟨_, reinsert_eq f pre (blank (s.maxSize * 2)) (WF_blank _ (by omega))
      (by simp only [blank]; push_cast; omega), ?_⟩
    have h1 := putAll_size_le pre (blank (s.maxSize * 2) : HashMap V)
    rw [putAll_maxSize]
    simp only [blank] at h1 ⊢
    push_cast
    omega

/-- C16, on the state after `set([1], 5); set([2], 6)`, setting `[3]` to `7`. -/
theorem set_capacity_witness :
    3 ≤ 3 ∧
    (∃ s1, set 3 twoKeys [3] 7 = .ok s1 ∧
      (4 * twoKeys.size > 3 * (twoKeys.maxSize : Int) → s1.maxSize = 2 * twoKeys.maxSize) ∧
      (¬ 4 * twoKeys.size > 3 * (twoKeys.maxSize : Int) → s1.maxSize = twoKeys.maxSize)) ∧
    (∃ s2, doubleBucketSize 2 twoKeys = .ok s2 ∧ s2.maxSize = 2 * twoKeys.maxSize) ∧
    ∀ pre p post, entries twoKeys = pre ++ p :: post →
      ∃ t, reinsert (set (3 - 2)) pre (blank (twoKeys.maxSize * 2)) = .ok t ∧
        ¬ 4 * t.size > 3 * (t.maxSize : Int) :=
  ⟨by decide, set_capacity twoKeys ⟨3, [Op.set [1] 5, Op.set [2] 6], rfl⟩ 3 (by decide) [3] 7⟩

/-- C17: on a reachable state on which `set` resizes, the count is at most
`0.75 * capacity` when `doubleBucketSize` has returned, and still so when `set` has
inserted its own entry and returned. -/
theorem load_after_resize (s : HashMap V) (h : Reachable s) (fuel : Nat) (hf : 3 ≤ fuel)
    (k : Key) (v : V) (hr : 4 * s.size > 3 * (s.maxSize : Int)) :
    ∃ s1 s2, doubleBucketSize (fuel - 1) s = .ok s1 ∧
      4 * s1.size ≤ 3 * (s1.maxSize : Int) ∧
      store s1 k v = .ok s2 ∧ set fuel s k v = .ok s2 ∧
      4 * s2.size ≤ 3 * (s2.maxSize : Int) := by
  obtain ⟨f, rfl⟩ := fuel_split fuel hf
  have hinv := h.inv
  have hge := h.maxSize_ge
  have hload := hinv.load
  have hwf2 := WF_grow s hinv.wf
  have hf2 : f + 3 - 1 = f + 2 := by omega
  have hset : set (f + 3) s k v = .ok (put (grow s) k v) := by
    rw [set_eq f s hinv k v, setP, if_pos hr]
  have hsz := put_size_le (grow s) k v
  rw [hf2]
  refine ⟨grow s, put (grow s) k v, doubleBucketSize_eq f s hinv, ?_, store_eq _ hwf2 k v,
    hset, ?_⟩
  · rw [grow_size s hinv.wf, grow_maxSize]; push_cast; omega
  · rw [grow_size s hinv.wf] at hsz
    rw [put_maxSize, grow_maxSize]; push_cast; omega

/-- C17, on the table holding the 13 keys `[1]`, ..., `[13]` at capacity 16. -/
theorem load_after_resize_witness :
    3 ≤ 3 ∧ 4 * thirteenKeys.size > 3 * (thirteenKeys.maxSize : Int) ∧
    ∃ s1 s2, doubleBucketSize (3 - 1) thirteenKeys = .ok s1 ∧
      4 * s1.size ≤ 3 * (s1.maxSize : Int) ∧
      store s1 [0] 0 = .ok s2 ∧ set 3 thirteenKeys [0] 0 = .ok s2 ∧
      4 * s2.size ≤ 3 * (s2.maxSize : Int) :=
  ⟨by decide, by rw [thirteenKeys_facts.1, thirteenKeys_facts.2]; decide,
    load_after_resize thirteenKeys (Reachable.of_ops _) 3 (by decide) [0] 0
      (by rw [thirteenKeys_facts.1, thirteenKeys_facts.2]; decide)⟩

end HashMap

namespace HashMap

variable {V : Type}

set_option exponentiation.threshold 1100 in
theorem roundDouble_small (n : Nat) (h : n < 2 ^ 53) : roundDouble n = some n := by
  have h2 : n < doubleLimit :=
    Nat.lt_trans h (@Nat.pow_lt_pow_right 2 53 1024 (by decide) (by decide))
  have h0 : halvings 1024 n = 0 := by
    show (if n < 2 ^ 53 then 0 else halvings 1023 (n / 2) + 1) = 0
    rw [if_pos h]
  unfold roundDouble
  simp only [h0, Nat.pow_zero, Nat.div_one, Nat.mod_one, Nat.mul_zero, Nat.mul_one]
  have hno : ¬ (0 > 1 ∨ (0 = 1 ∧ n % 2 = 1)) := by omega
  rw [if_neg hno, if_pos h2]

theorem hashStepDouble_eq (m h c : Nat) (hh : h < 2 ^ 48) (hc : c < 65536) :
    hashStepDouble m (some h) c = hashStep m (some h) c := by
  have h1 : 31 * h < 2 ^ 53 := by omega
  have h2 : 31 * h + c < 2 ^ 53 := by omega
  have e1 := roundDouble_small _ h1
  have e2 := roundDouble_small _ h2
  unfold hashStepDouble hashStep
  simp only [e1, e2]

theorem hashStep_lt (m h c r : Nat) (hr : hashStep m (some h) c = some r) : r < m := by
  simp only [hashStep] at hr
  split at hr
  · cases hr
  · rename_i hm
    cases hr
    exact Nat.mod_lt _ (by omega)

theorem hashDouble_foldl (m : Nat) (hm : m ≤ 2 ^ 48) (key : Key) (hk : ∀ x ∈ key, x < 65536)
    (acc : Option Nat) (hacc : ∀ h, acc = some h → h < 2 ^ 48) :
    key.foldl (hashStepDouble m) acc = key.foldl (hashStep m) acc := by
  induction key generalizing acc with
  | nil => simp only [List.foldl_nil]
  | cons c key ih =>
    have hc : c < 65536 := hk c (List.mem_cons_self _ _)
    have hk2 : ∀ x ∈ key, x < 65536 := fun x hx => hk x (List.mem_cons_of_mem _ hx)
    simp only [List.foldl_cons]
    cases acc with
    | none => exact ih hk2 none (fun h hh => by cases hh)
    | some h =>
      rw [hashStepDouble_eq m h c (hacc h rfl) hc]
      apply ih hk2
      intro r hr
      exact Nat.lt_of_lt_of_le (hashStep_lt m h c r hr) hm

/-- Up to the capacity `2 ^ 48` the exact `hash` is the double-precision `hash` of the
source, on every key of UTF-16 code units. -/
theorem hashDouble_eq_hash (m : Nat) (hm : m ≤ 2 ^ 48) (key : Key)
    (hk : ∀ x ∈ key, x < 65536) : hashDouble m key = hash m key :=
  hashDouble_foldl m hm key hk (some 0) (fun h hh => by cases hh; decide)

theorem hashDouble_eq_digest_mod (m : Nat) (hm0 : 0 < m) (hm : m ≤ 2 ^ 48) (key : Key)
    (hk : ∀ x ∈ key, x < 65536) : hashDouble m key = some (digest key % m) := by
  rw [hashDouble_eq_hash m hm key hk, hash_eq_hashN m hm0, hashN_eq_digest_mod]

set_option exponentiation.threshold 1100 in
set_option maxRecDepth 20000 in
theorem hashDouble_twelveUnits :
    hashDouble (2 ^ 49) twelveUnits = some 136903241299807 ∧
      hashDouble (2 ^ 48) twelveUnits = some 136903241299776 ∧
      digest twelveUnits % 2 ^ 49 = 136903241299776 :=
  ⟨rfl, rfl, rfl⟩

/-- C18: reducing the capacity-independent digest once modulo the capacity is a change of
behaviour: at the capacity `2 ^ 49` the key of twelve code units `0xFFFF` hashes to
`136903241299807`, because the source rounds `31 * hashCode + charCode` to a double, while
its digest reduces to `136903241299776`. -/
theorem digest_reduction_differs :
    ∃ (key : Key) (j : Nat), 16 ≤ 2 ^ j ∧ (∀ x ∈ key, x < 65536) ∧
      hashDouble (2 ^ j) key = some 136903241299807 ∧
      digest key % 2 ^ j = 136903241299776 ∧
      hashDouble (2 ^ j) key ≠ some (digest key % 2 ^ j) := by
  refine ⟨twelveUnits, 49, by decide, by decide, hashDouble_twelveUnits.1,
    hashDouble_twelveUnits.2.2, ?_⟩
  rw [hashDouble_twelveUnits.1, hashDouble_twelveUnits.2.2]
  decide

/-- C20 (as amended): for every key of UTF-16 code units and every capacity `c` with
`0 < c` and `c <= 2 ^ 47`, the hash against `2 * c` reduced modulo `c` is the hash against
`c`, so it is that hash or that hash plus `c`; and when `doubleBucketSize` doubles the table
of a reachable state, an entry of bucket `i` is afterwards in bucket `i` or in bucket
`i + maxSize`. -/
theorem hash_double (s : HashMap V) (h : Reachable s) (key : Key) (c : Nat) (hc : 0 < c)
    (hc2 : c ≤ 2 ^ 47) (hkey : ∀ x ∈ key, x < 65536) :
    (∃ h1 h2, hashDouble c key = some h1 ∧ hashDouble (2 * c) key = some h2 ∧ h2 % c = h1 ∧
      (h2 = h1 ∨ h2 = h1 + c)) ∧
    ∃ s1, doubleBucketSize 2 s = .ok s1 ∧ s1.maxSize = 2 * s.maxSize ∧
      ∀ i ch, s.buckets[i]? = some ch → ∀ e ∈ ch,
        ∃ j ch1, (j = i ∨ j = i + s.maxSize) ∧ s1.buckets[j]? = some ch1 ∧ e ∈ ch1 := by
  have hsplit : ∀ (key : Key) (c : Nat), 0 < c →
      hashN (2 * c) key = hashN c key ∨ hashN (2 * c) key = hashN c key + c := by
    intro key c hc
    have h1 := hashN_double c key
    have h2 := hashN_lt (2 * c) (by omega) key
    have h3 := Nat.div_add_mod (hashN (2 * c) key) c
    have h4 : hashN (2 * c) key / c < 2 := by
      rw [Nat.div_lt_iff_lt_mul hc]; omega
    rw [h1] at h3
    generalize hashN (2 * c) key / c = q at h3 h4
    have h5 : q = 0 ∨ q = 1 := by omega
    rcases h5 with h5 | h5
    · rw [h5, Nat.mul_zero] at h3; left; omega
    · rw [h5, Nat.mul_one] at h3; right; omega
  have hwf := h.inv.wf
  have hwf2 := WF_grow s hwf
  have hd1 : hashDouble c key = some (hashN c key) := by
    rw [hashDouble_eq_hash c (by omega) key hkey, hash_eq_hashN c hc]
  have hd2 : hashDouble (2 * c) key = some (hashN (2 * c) key) := by
    rw [hashDouble_eq_hash (2 * c) (by omega) key hkey, hash_eq_hashN (2 * c) (by omega)]
  refine ⟨⟨_, _, hd1, hd2, hashN_double c key, hsplit key c hc⟩,
    _, doubleBucketSize_eq 0 s h.inv, by rw [grow_maxSize]; omega, ?_⟩
  intro i ch hi e he
  have hp := hwf.placed i ch hi e he
  have hmem : (e.key, e.value) ∈ entries s := by
    simp only [entries, List.mem_flatMap, List.mem_map]
    exact ⟨ch, List.getElem?_mem hi, e, he, rfl⟩
  have hl : lk (grow s) e.key = some e.value := by
    rw [lk_grow s hwf]; exact (mem_entries_iff s hwf _ _).1 hmem
  have hin := chainGet_mem e.key e.value _ hl
  have hb := bucket_at (grow s) hwf2 e.key
  rw [grow_maxSize] at hb
  have hmul : s.maxSize * 2 = 2 * s.maxSize := by omega
  rw [hmul] at hb
  refine ⟨_, _, ?_, hb, hin⟩
  rw [← hp]
  exact hsplit e.key s.maxSize hwf.pos

/-- C20 (as amended), on the state after `set([1], 5); set([2], 6)`, the key "q" and the
capacity 16. -/
theorem hash_double_witness :
    0 < 16 ∧ 16 ≤ 2 ^ 47 ∧ (∀ x ∈ ([113] : Key), x < 65536) ∧
    (∃ h1 h2, hashDouble 16 [113] = some h1 ∧ hashDouble (2 * 16) [113] = some h2 ∧
      h2 % 16 = h1 ∧ (h2 = h1 ∨ h2 = h1 + 16)) ∧
    ∃ s1, doubleBucketSize 2 twoKeys = .ok s1 ∧ s1.maxSize = 2 * twoKeys.maxSize ∧
      ∀ i ch, twoKeys.buckets[i]? = some ch → ∀ e ∈ ch,
        ∃ j ch1, (j = i ∨ j = i + twoKeys.maxSize) ∧ s1.buckets[j]? = some ch1 ∧ e ∈ ch1 :=
  ⟨by decide, by decide, by decide,
    hash_double twoKeys ⟨3, [Op.set [1] 5, Op.set [2] 6], rfl⟩ [113] 16 (by decide)
      (by decide) (by decide)⟩

/-- C20 as stated fails at the capacity `c = 2 ^ 48`: the key of twelve code units `0xFFFF`
hashes to `136903241299807` against `2 * c`, where the source rounds to a double, and to
`136903241299776` against `c`, and the first reduced modulo `c` is not the second. -/
theorem hash_double_fails :
    0 < 2 ^ 48 ∧ (∀ x ∈ twelveUnits, x < 65536) ∧
    hashDouble (2 * 2 ^ 48) twelveUnits = some 136903241299807 ∧
    hashDouble (2 ^ 48) twelveUnits = some 136903241299776 ∧
    136903241299807 % 2 ^ 48 ≠ 136903241299776 :=
  ⟨by decide, by decide, hashDouble_twelveUnits.1, hashDouble_twelveUnits.2.1, by decide⟩

end HashMap

/-! ## Termination of `set` on arbitrary states -/

namespace HashMap

variable {V : Type}

theorem bucketOf_error (s : HashMap V) (k : Key) (e : Fault)
    (h : bucketOf s k = .error e) : e = .typeError := by
  unfold bucketOf at h
  split at h
  · cases h; rfl
  · split at h
    · cases h; rfl
    · cases h

theorem store_ne_outOfFuel (s : HashMap V) (k : Key) (v : V) :
    store s k v ≠ .error .outOfFuel := by
  unfold store
  split
  · rename_i e he
    rw [bucketOf_error s k e he]
    simp
  · split <;> simp

theorem store_blank_zero (k : Key) (v : V) :
    store (blank 0 : HashMap V) k v = .error .typeError := by
  unfold store bucketOf
  cases hash (blank 0 : HashMap V).maxSize k with
  | none => rfl
  | some hashKey => rfl

theorem entries_length_le_of_update (t t1 : HashMap V) (ht : WF t) (ht1 : WF t1) (k : Key)
    (v : V) (h : ∀ k2, lk t1 k2 = if k2 = k then some v else lk t k2) :
    (entries t1).length ≤ (entries t).length + 1 := by
  have h1 : t1.size = (put t k v).size :=
    size_eq_of_lk_eq t1 (put t k v) ht1 (WF_put t ht k v)
      (fun k2 => by rw [h k2, lk_put t ht])
  have h2 := put_size_le t k v
  have h3 := ht.count
  have h4 := ht1.count
  omega

theorem store_maxSize (s s1 : HashMap V) (k : Key) (v : V) (h : store s k v = .ok s1) :
    s1.maxSize = s.maxSize := by
  unfold store at h
  split at h
  · cases h
  · split at h <;> cases h <;> rfl

theorem reinsert_general (g : HashMap V → Key → V → Except Fault (HashMap V)) (m B : Nat)
    (hg : ∀ t k v, WF t → (entries t).length < m → 3 * t.maxSize ≤ B →
      ∃ t1, g t k v = .ok t1 ∧ WF t1 ∧
        (∀ k2, lk t1 k2 = if k2 = k then some v else lk t k2) ∧ 3 * t1.maxSize ≤ B)
    (l : List (Key × V)) (t : HashMap V) (ht : WF t)
    (hb : (entries t).length + l.length ≤ m) (hB : 3 * t.maxSize ≤ B) :
    ∃ t1, reinsert g l t = .ok t1 ∧ WF t1 ∧
      (∀ k2, lk t1 k2 = lastVal k2 l (lk t k2)) ∧ 3 * t1.maxSize ≤ B := by
  induction l generalizing t with
  | nil => exact ⟨t, rfl, ht, fun _ => rfl, hB⟩
  | cons p l ih =>
    obtain ⟨k, v⟩ := p
    have hlen : ((k, v) :: l).length = l.length + 1 := rfl
    rw [hlen] at hb
    obtain ⟨t1, h1, hwf1, hlk1, hB1⟩ := hg t k v ht (by omega) hB
    have hle := entries_length_le_of_update t t1 ht hwf1 k v hlk1
    obtain ⟨t2, h2, hwf2, hlk2, hB2⟩ := ih t1 hwf1 (by omega) hB1
    refine ⟨t2, ?_, hwf2, ?_, hB2⟩
    · simp only [reinsert, h1]
      exact h2
    · intro k2
      rw [hlk2 k2, hlk1 k2]
      simp only [lastVal, List.foldl_cons]
      by_cases hk : k2 = k
      · simp [hk]
      · have hk3 : ¬ k = k2 := fun h3 => hk h3.symm
        simp [hk, hk3]

theorem set_general (B n : Nat) :
    ∀ (t : HashMap V) (k : Key) (v : V) (fuel : Nat), WF t → (entries t).length < n →
      2 * n ≤ fuel → 3 * t.maxSize ≤ B → 8 * (entries t).length ≤ B →
      ∃ t1, set fuel t k v = .ok t1 ∧ WF t1 ∧
        (∀ k2, lk t1 k2 = if k2 = k then some v else lk t k2) ∧ 3 * t1.maxSize ≤ B := by
  induction n with
  | zero => intro t k v fuel _ h; exact absurd h (Nat.not_lt_zero _)
  | succ n ih =>
    intro t k v fuel ht hlen hfuel hB hcnt
    obtain ⟨g, rfl⟩ : ∃ g, fuel = g + 2 := ⟨fuel - 2, by omega⟩
    rw [set]
    by_cases hc : 4 * t.size > 3 * (t.maxSize : Int)
    · rw [if_pos hc, doubleBucketSize]
      have hpos : 0 < t.maxSize * 2 := by have := ht.pos; omega
      have hsize := ht.count
      have hbl : (entries (blank (t.maxSize * 2) : HashMap V)).length + (entries t).length
          ≤ (entries t).length := by
        rw [entries_blank]; simp
      have hB0 : 3 * (blank (t.maxSize * 2) : HashMap V).maxSize ≤ B := by
        simp only [blank]; omega
      obtain ⟨t1, h1, hwf1, hlk1, hB1⟩ := reinsert_general (set g) (entries t).length B
        (fun t2 k2 v2 h2 h3 h4 => ih t2 k2 v2 g h2 (by omega) (by omega) h4 (by omega))
        (entries t) (blank (t.maxSize * 2)) (WF_blank _ hpos) hbl hB0
      simp only [blank] at h1
      simp only [h1]
      refine ⟨_, store_eq t1 hwf1 k v, WF_put t1 hwf1 k v, ?_, by rw [put_maxSize]; exact hB1⟩
      intro k2
      rw [lk_put t1 hwf1, hlk1 k2, lk_blank _ hpos, lastVal_entries t ht]
    · rw [if_neg hc]
      exact ⟨_, store_eq t ht k v, WF_put t ht k v, fun k2 => lk_put t ht k k2 v,
        by rw [put_maxSize]; exact hB⟩

theorem doubleBucketSize_general (s : HashMap V) (hpos : 0 < s.maxSize) (fuel B : Nat)
    (hfuel : 2 * (entries s).length + 1 ≤ fuel) (hB : 6 * s.maxSize ≤ B)
    (hcnt : 8 * (entries s).length ≤ B) :
    ∃ t1, doubleBucketSize fuel s = .ok t1 ∧ WF t1 ∧
      (∀ k2, lk t1 k2 = lastVal k2 (entries s) none) ∧ 3 * t1.maxSize ≤ B := by
  obtain ⟨g, rfl⟩ : ∃ g, fuel = g + 1 := ⟨fuel - 1, by omega⟩
  have hpos2 : 0 < s.maxSize * 2 := by omega
  have hbl : (entries (blank (s.maxSize * 2) : HashMap V)).length + (entries s).length
      ≤ (entries s).length := by
    rw [entries_blank]; simp
  have hB0 : 3 * (blank (s.maxSize * 2) : HashMap V).maxSize ≤ B := by
    simp only [blank]; omega
  obtain ⟨t1, h1, hwf1, hlk1, hB1⟩ := reinsert_general (set g) (entries s).length B
    (fun t2 k2 v2 h2 h3 h4 => set_general B _ t2 k2 v2 g h2 h3 (by omega) h4 (by omega))
    (entries s) (blank (s.maxSize * 2)) (WF_blank _ hpos2) hbl hB0
  refine ⟨t1, ?_, hwf1, ?_, hB1⟩
  · rw [doubleBucketSize]; exact h1
  · intro k2; rw [hlk1 k2, lk_blank _ hpos2]

theorem set_zero_capacity (s : HashMap V) (k : Key) (v : V) (fuel : Nat)
    (hfuel : 2 * (entries s).length + 2 ≤ fuel) (hz : s.maxSize = 0)
    (hc : 4 * s.size > 3 * (s.maxSize : Int)) : set fuel s k v = .error .typeError := by
  obtain ⟨g, rfl⟩ : ∃ g, fuel = g + 2 := ⟨fuel - 2, by omega⟩
  rw [set, if_pos hc, doubleBucketSize, hz]
  cases he : entries s with
  | nil => exact store_blank_zero k v
  | cons p rest =>
    rw [he] at hfuel
    obtain ⟨g2, rfl⟩ : ∃ g2, g = g2 + 1 := ⟨g - 1, by simp at hfuel; omega⟩
    have hs : set (g2 + 1) (blank (0 * 2) : HashMap V) p.1 p.2 = .error .typeError := by
      rw [set, if_neg (by simp [blank])]
      exact store_blank_zero p.1 p.2
    obtain ⟨k1, v1⟩ := p
    simp only [blank] at hs
    simp only [reinsert, hs]

theorem set_ne_outOfFuel (s : HashMap V) (k : Key) (v : V) (fuel : Nat)
    (hfuel : 2 * (entries s).length + 2 ≤ fuel) : set fuel s k v ≠ .error .outOfFuel := by
  by_cases hc : 4 * s.size > 3 * (s.maxSize : Int)
  · by_cases hpos : 0 < s.maxSize
    · obtain ⟨g, rfl⟩ : ∃ g, fuel = g + 2 := ⟨fuel - 2, by omega⟩
      obtain ⟨t1, h1, hwf1, _⟩ := doubleBucketSize_general s hpos (g + 1)
        (6 * s.maxSize + 8 * (entries s).length) (by omega) (by omega) (by omega)
      rw [set, if_pos hc, h1]
      exact store_ne_outOfFuel t1 k v
    · rw [set_zero_capacity s k v fuel hfuel (by omega) hc]
      intro h; cases h
  · obtain ⟨g, rfl⟩ : ∃ g, fuel = g + 1 := ⟨fuel - 1, by omega⟩
    rw [set, if_neg hc]
    exact store_ne_outOfFuel s k v

theorem set_capacity_bound (s s1 : HashMap V) (k : Key) (v : V) (fuel : Nat)
    (hfuel : 2 * (entries s).length + 2 ≤ fuel) (hcap : s.maxSize < 2 ^ 31)
    (hcnt : 8 * (entries s).length < 3 * 2 ^ 32) (h : set fuel s k v = .ok s1) :
    s1.maxSize < 2 ^ 32 := by
  by_cases hc : 4 * s.size > 3 * (s.maxSize : Int)
  · by_cases hpos : 0 < s.maxSize
    · obtain ⟨g, rfl⟩ : ∃ g, fuel = g + 2 := ⟨fuel - 2, by omega⟩
      obtain ⟨t1, h1, hwf1, _, hB1⟩ := doubleBucketSize_general s hpos (g + 1)
        (3 * 2 ^ 32 - 3) (by omega) (by omega) (by omega)
      rw [set, if_pos hc, h1] at h
      have := store_maxSize t1 s1 k v h
      omega
    · rw [set_zero_capacity s k v fuel hfuel (by omega) hc] at h
      cases h
  · obtain ⟨g, rfl⟩ : ∃ g, fuel = g + 1 := ⟨fuel - 1, by omega⟩
    rw [set, if_neg hc] at h
    have := store_maxSize s s1 k v h
    omega

end HashMap

namespace HashMap

variable {V : Type}

/-- C19 (as amended): on every state with capacity below `2 ^ 31` and fewer than
`3 * 2 ^ 29` entries, so that no table of `2 ^ 32` chains is asked for, `set` ends once
the fuel exceeds twice the number of entries by 2: the recursion through
`doubleBucketSize` is well-founded, and the call returns or throws a `TypeError`; the
capacity it returns with is below `2 ^ 32`.  When moreover the capacity is positive and the
keys of `entries()` are pairwise distinct, a `set` that resizes returns, `doubleBucketSize`
keeps exactly the captured entries, and each of them that is not keyed `k` is in
`entries()` after the call. -/
theorem set_terminates (s : HashMap V) (k : Key) (v : V) (fuel : Nat)
    (hf : 2 * (entries s).length + 2 ≤ fuel) (hcap : s.maxSize < 2 ^ 31)
    (hcnt : 8 * (entries s).length < 3 * 2 ^ 32) :
    set fuel s k v ≠ .error .outOfFuel ∧
    (∀ e, set fuel s k v = .error e → e = .typeError) ∧
    (∀ s1, set fuel s k v = .ok s1 → s1.maxSize < 2 ^ 32) ∧
    (0 < s.maxSize → ((entries s).map Prod.fst).Nodup →
      4 * s.size > 3 * (s.maxSize : Int) →
      ∃ s0 s1, doubleBucketSize (fuel - 1) s = .ok s0 ∧ s0.maxSize < 2 ^ 32 ∧
        (entries s0).Perm (entries s) ∧
        store s0 k v = .ok s1 ∧ set fuel s k v = .ok s1 ∧ get s1 k = .ok (some v) ∧
        ∀ p ∈ entries s, p.1 ≠ k → p ∈ entries s1) := by
  have hne := set_ne_outOfFuel s k v fuel hf
  refine ⟨hne, ?_, fun s1 h1 => set_capacity_bound s s1 k v fuel hf hcap hcnt h1, ?_⟩
  · intro e he
    cases e with
    | typeError => rfl
    | outOfFuel => exact absurd he hne
  intro hpos hnd hc
  obtain ⟨g, rfl⟩ : ∃ g, fuel = g + 2 := ⟨fuel - 2, by omega⟩
  have hg : g + 2 - 1 = g + 1 := by omega
  obtain ⟨t1, h1, hwf1, hlk1, hB1⟩ := doubleBucketSize_general s hpos (g + 1)
    (3 * 2 ^ 32 - 3) (by omega) (by omega) (by omega)
  have hmem : ∀ k2 v2, (k2, v2) ∈ entries t1 ↔ (k2, v2) ∈ entries s := by
    intro k2 v2
    rw [mem_entries_iff t1 hwf1, hlk1 k2, lastVal_eq_some_iff k2 v2 _ hnd]
  have hwf2 := WF_put t1 hwf1 k v
  rw [hg]
  refine ⟨t1, put t1 k v, h1, by omega, ?_, store_eq t1 hwf1 k v, ?_, ?_, ?_⟩
  · rw [List.perm_ext_iff_of_nodup (entries_nodup t1 hwf1) (List.Nodup.of_map _ hnd)]
    intro p
    exact hmem p.1 p.2
  · rw [set, if_pos hc, h1]
    exact store_eq t1 hwf1 k v
  · rw [get_eq _ hwf2, lk_put t1 hwf1, if_pos rfl]
  · intro p hp hne2
    rw [← hmem p.1 p.2, mem_entries_iff t1 hwf1] at hp
    show (p.1, p.2) ∈ entries (put t1 k v)
    rw [mem_entries_iff _ hwf2, lk_put t1 hwf1, if_neg hne2]
    exact hp

/-- C19 (as amended), on a table of capacity 1 holding three keys, where the reinsertion
of the third key resizes again. -/
theorem set_terminates_witness :
    2 * (entries crowded).length + 2 ≤ 8 ∧ crowded.maxSize < 2 ^ 31 ∧
    8 * (entries crowded).length < 3 * 2 ^ 32 ∧ 0 < crowded.maxSize ∧
    ((entries crowded).map Prod.fst).Nodup ∧
    4 * crowded.size > 3 * (crowded.maxSize : Int) ∧
    set 8 crowded [4] 4 ≠ .error .outOfFuel ∧
    (∀ e, set 8 crowded [4] 4 = .error e → e = .typeError) ∧
    (∀ s1, set 8 crowded [4] 4 = .ok s1 → s1.maxSize < 2 ^ 32) ∧
    ∃ s0 s1, doubleBucketSize (8 - 1) crowded = .ok s0 ∧ s0.maxSize < 2 ^ 32 ∧
      (entries s0).Perm (entries crowded) ∧
      store s0 [4] 4 = .ok s1 ∧ set 8 crowded [4] 4 = .ok s1 ∧
      get s1 [4] = .ok (some 4) ∧
      ∀ p ∈ entries crowded, p.1 ≠ [4] → p ∈ entries s1 :=
  ⟨by decide, by decide, by decide, by decide, by decide, by decide,
    (set_terminates crowded [4] 4 8 (by decide) (by decide) (by decide)).1,
    (set_terminates crowded [4] 4 8 (by decide) (by decide) (by decide)).2.1,
    (set_terminates crowded [4] 4 8 (by decide) (by decide) (by decide)).2.2.1,
    (set_terminates crowded [4] 4 8 (by decide) (by decide) (by decide)).2.2.2
      (by decide) (by decide) (by decide)⟩

/-- C19 as stated fails on states outside the representation invariant: on a chain holding
the key `[1]` twice, the resizing `set` returns a table from which the captured entry
`([1], 5)` is gone; on a table of capacity 0 the resizing `set` ends in a `TypeError`. -/
theorem set_drops_duplicate :
    ([1], 5) ∈ entries dupKeys ∧
    set 3 dupKeys [2] 7 = .ok dupKeysAfter ∧ ([1], 5) ∉ entries dupKeysAfter ∧
    set 3 zeroCapacity [2] 7 = .error .typeError :=
  ⟨by decide, rfl, by decide, rfl⟩

end HashMap
